import Mathlib

/-!
Game of Life, parallel generation step (`gol.c`, `main.c`).

A shallow embedding of the generation-step engine of the repository and the
properties of its specification.

Modelling conventions.

* `gol.h` is not among the sources.  `cell_t` is taken as an unsigned cell
  value (a natural number); `stats_t` is the record of four `unsigned int`
  counters that `print_stats` prints with `%u`, so every `++` and `+=` on a
  counter is reduced modulo `2 ^ 32`.
* C `int` values (`size`, `threads`, `i`, `j`, `counter`, the neighbour count)
  are natural numbers: for `size ≥ 1` and `threads ≥ 1` none of them is ever
  negative.  Signed overflow has no defined behaviour in C, so the model
  describes the executions in which `size * size` and `counter + jump` are
  representable.
* A board (`cell_t **`) is a function from row and column index to the cell
  stored there; a store `newboard[i][j] = v` is a function update.  `board` and
  `newboard` are distinct buffers, as in `main`, so a store into `newboard`
  never changes what is read from `board`.
* The worker loop `while (i < size)` is run with a fuel bound and returns
  `none` when the fuel runs out.
* The workers started by `play` are run one after the other in the order of
  their creation, and joined in that order.  A worker reads `board`, which no
  worker writes, and writes only the cells of `newboard` and the private record
  that are its own; `play_interleaved` runs the loop iterations of the workers
  in an arbitrary order instead, and `play_interleaved_eq_play` shows that the
  board written and the statistics returned are those of `play`.
* `play_mem` is `play` on two buffers held in one memory and named by their
  addresses; `play_mem_eq` shows that for distinct addresses it is `play` on
  the contents of the buffers.
* `main_play_calls` records the calls of `play` that `main` makes, for any
  integer `threads`, `size` and `steps`; `main_loop` is the loop of `main` on a
  run that `main` accepts.
-/

namespace Gol

/-- Modelled from the spec: `gol.h`, which declares `cell_t`, is not among the
sources.  A cell is a binary value, alive or dead; `read_file` stores 0 or 1,
and the value is taken as an unsigned integer. -/
abbrev cell_t := Nat

/-- A board `cell_t **board`, read as `board i j` for `board[i][j]`. -/
abbrev Board := Nat → Nat → cell_t

/-- The modulus of `unsigned int` arithmetic, `2 ^ 32`. -/
def UINT_MOD : Nat := 2 ^ 32

/-- Modelled from the spec: `gol.h`, which declares `stats_t`, is not among the
sources.  The step statistics are four non-negative counters (born, survived,
died of loneliness, died of overcrowding); `print_stats` prints them with `%u`,
so each field is an `unsigned int`, kept below `UINT_MOD`. -/
structure stats_t where
  borns : Nat
  survivals : Nat
  loneliness : Nat
  overcrowding : Nat
  deriving DecidableEq, Repr

/-- The initialiser `{0, 0, 0, 0}`. -/
def stats_zero : stats_t := ⟨0, 0, 0, 0⟩

/-- The store `b[i][j] = v`. -/
def Board.set (b : Board) (i j : Nat) (v : cell_t) : Board :=
  fun x y => if x = i ∧ y = j then v else b x y

/-- The inner loop of `adjacent_to`: `for (l = sl; l <= el; l++) count += board[k][l]`. -/
def adjacent_row (board : Board) (k sl el count : Nat) : Nat :=
  (List.range' sl (el + 1 - sl)).foldl (fun c l => c + board k l) count

/-- The function `adjacent_to` of `gol.c`: the sum of the cells of the block
`[sk, ek] × [sl, el]` around `(i, j)`, clamped to the board, minus the cell
`(i, j)` itself.  The block contains `(i, j)`, so `count -= board[i][j]` never
goes below zero. -/
def adjacent_to (board : Board) (size i j : Nat) : Nat :=
  let sk := if i > 0 then i - 1 else i
  let ek := if i + 1 < size then i + 1 else i
  let sl := if j > 0 then j - 1 else j
  let el := if j + 1 < size then j + 1 else j
  let count := (List.range' sk (ek + 1 - sk)).foldl
    (fun c k => adjacent_row board k sl el c) 0
  count - board i j

/-- The argument record `thread_args_t` (the two board pointers are passed
separately). -/
structure thread_args_t where
  size : Nat
  start : Nat
  jump : Nat
  deriving DecidableEq, Repr

/-- The local variables of `thread` that live across loop iterations. -/
structure thread_locals where
  i : Nat
  j : Nat
  counter : Nat
  thread_stats : stats_t
  deriving DecidableEq, Repr

/-- The `if`/`else` cascade in the body of the loop of `thread`: the store into
`newboard[i][j]` and the counter increment for the cell `(i, j)`. -/
def thread_cell (board : Board) (size i j : Nat) (newboard : Board) (st : stats_t) :
    Board × stats_t :=
  let a := adjacent_to board size i j
  if board i j ≠ 0 then
    if a < 2 then
      (newboard.set i j 0, { st with loneliness := (st.loneliness + 1) % UINT_MOD })
    else if a = 2 ∨ a = 3 then
      (newboard.set i j (board i j), { st with survivals := (st.survivals + 1) % UINT_MOD })
    else if a > 3 then
      (newboard.set i j 0, { st with overcrowding := (st.overcrowding + 1) % UINT_MOD })
    else
      (newboard, st)
  else
    if a = 3 then
      (newboard.set i j 1, { st with borns := (st.borns + 1) % UINT_MOD })
    else
      (newboard.set i j (board i j), st)

/-- One iteration of the loop of `thread`: the cell update followed by
`counter += jump; i = counter / size; j = counter % size`. -/
def thread_body (board : Board) (size jump : Nat) (newboard : Board) (s : thread_locals) :
    Board × thread_locals :=
  let r := thread_cell board size s.i s.j newboard s.thread_stats
  let counter := s.counter + jump
  (r.1, { i := counter / size, j := counter % size, counter := counter, thread_stats := r.2 })

/-- The loop `while (i < size) { ... }` of `thread`, with a fuel bound. -/
def thread_loop (board : Board) (size jump : Nat) :
    Nat → Board → thread_locals → Option (Board × stats_t)
  | 0, _, _ => none
  | fuel + 1, newboard, s =>
    if s.i < size then
      let r := thread_body board size jump newboard s
      thread_loop board size jump fuel r.1 r.2
    else
      some (newboard, s.thread_stats)

/-- The function `thread` of `gol.c`: the worker started by `play`.  It returns
the board it wrote into and its private statistics record. -/
def thread (fuel : Nat) (board newboard : Board) (params : thread_args_t) :
    Option (Board × stats_t) :=
  thread_loop board params.size params.jump fuel newboard
    { i := params.start / params.size, j := params.start % params.size,
      counter := params.start, thread_stats := stats_zero }

/-- The linear indices `counter` at which the loop of `thread` runs its body, in
the order of the iterations: the control skeleton of `thread_loop` (the loop
condition on `i`, then `counter += jump; i = counter / size`).
`thread_eq_foldl_indices` shows that `thread` runs its body at these indices. -/
def thread_indices (size jump : Nat) : Nat → Nat → Nat → Option (List Nat)
  | 0, _, _ => none
  | fuel + 1, i, counter =>
    if i < size then
      (thread_indices size jump fuel ((counter + jump) / size) (counter + jump)).map
        (fun l => counter :: l)
    else
      some []

/-- The indices visited by the worker with arguments `params`. -/
def worker_indices (fuel : Nat) (params : thread_args_t) : Option (List Nat) :=
  thread_indices params.size params.jump fuel (params.start / params.size) params.start

/-- The clamp at the head of `play`: `if (threads > size*size) threads = size*size`. -/
def effective_threads (size threads : Nat) : Nat :=
  if threads > size * size then size * size else threads

/-- The first loop of `play`: the argument records of the workers it starts, in
the order of creation. -/
def play_args (size threads : Nat) : List thread_args_t :=
  let threads := effective_threads size threads
  (List.range threads).map (fun k => { size := size, start := k, jump := threads })

/-- The workers of one step, run in the order of creation; the result is the
board written and the list of the private records, in that order. -/
def run_threads (fuel : Nat) (board : Board) :
    List thread_args_t → Board → Option (Board × List stats_t)
  | [], newboard => some (newboard, [])
  | params :: rest, newboard =>
    match thread fuel board newboard params with
    | none => none
    | some (nb, st) =>
      match run_threads fuel board rest nb with
      | none => none
      | some (nb2, sts) => some (nb2, st :: sts)

/-- One pass of the join loop of `play`: `stats.f += thread_stats->f` for the
four fields. -/
def stats_add (stats thread_stats : stats_t) : stats_t :=
  { borns := (stats.borns + thread_stats.borns) % UINT_MOD
    survivals := (stats.survivals + thread_stats.survivals) % UINT_MOD
    loneliness := (stats.loneliness + thread_stats.loneliness) % UINT_MOD
    overcrowding := (stats.overcrowding + thread_stats.overcrowding) % UINT_MOD }

/-- The function `play` of `gol.c`: start the workers, join them and add up their
records.  The result is the content of `newboard` after the call and the
returned statistics. -/
def play (fuel : Nat) (board newboard : Board) (size threads : Nat) :
    Option (Board × stats_t) :=
  match run_threads fuel board (play_args size threads) newboard with
  | none => none
  | some (nb, sts) => some (nb, sts.foldl stats_add stats_zero)

/-- The vertical blinker `[[0,1,0],[0,1,0],[0,1,0]]` on the grid of size 3. -/
def blinker : Board := fun r c => if r < 3 ∧ c = 1 then 1 else 0

/-- The all-dead board. -/
def dead_board : Board := fun _ _ => 0

/-- The main loop of `main`: `steps` times `play(prev, next, size, threads)`, the
addition of the step statistics to `stats_total`, and the exchange of the two
buffers.  The result is the final `prev`, the final `next`, `stats_total`, and
the step statistics in the order the steps ran (what `print_stats(stats_step)`
prints in a `DEBUG` build). -/
def main_loop (fuel size threads : Nat) :
    Nat → Board → Board → stats_t → Option (Board × Board × stats_t × List stats_t)
  | 0, prev, next, stats_total => some (prev, next, stats_total, [])
  | steps + 1, prev, next, stats_total =>
    match play fuel prev next size threads with
    | none => none
    | some (nb, stats_step) =>
      match main_loop fuel size threads steps nb prev (stats_add stats_total stats_step) with
      | none => none
      | some (p, n, total, log) => some (p, n, total, stats_step :: log)

/-! ## Definitions used to state and prove the properties -/

/-- The sum of `g` over the window `{i - 1, i, i + 1}` clamped to `[0, n)`. -/
def window_sum (n i : Nat) (g : Nat → Nat) : Nat :=
  (if i > 0 then g (i - 1) else 0) + g i + (if i + 1 < n then g (i + 1) else 0)

/-- The neighbour count in the words of the specification: the number of live
cells `(k, l)` of the grid with `|k - i| ≤ 1`, `|l - j| ≤ 1` and
`(k, l) ≠ (i, j)`. -/
def live_neighbours (board : Board) (size i j : Nat) : Nat :=
  ((Finset.range size ×ˢ Finset.range size).filter (fun p : Nat × Nat =>
      |(p.1 : Int) - (i : Int)| ≤ 1 ∧ |(p.2 : Int) - (j : Int)| ≤ 1 ∧ p ≠ (i, j)
        ∧ board p.1 p.2 = 1)).card

/-- The transition rule in the words of the specification, on a cell value
and a neighbour count. -/
def transition (cell : cell_t) (a : Nat) : cell_t :=
  if cell = 1 then
    if a < 2 then 0 else if a = 2 ∨ a = 3 then 1 else 0
  else
    if a = 3 then 1 else 0

/-- The value the loop body of `thread` stores into `newboard[i][j]`. -/
def cell_next (board : Board) (size i j : Nat) : cell_t :=
  let a := adjacent_to board size i j
  if board i j ≠ 0 then
    if a < 2 then 0 else if a = 2 ∨ a = 3 then board i j else 0
  else
    if a = 3 then 1 else board i j

/-- The cell `(i, j)` takes the branch that increments `borns`. -/
def is_born (board : Board) (size i j : Nat) : Prop :=
  board i j = 0 ∧ adjacent_to board size i j = 3

/-- The cell `(i, j)` takes the branch that increments `survivals`. -/
def is_survival (board : Board) (size i j : Nat) : Prop :=
  board i j ≠ 0 ∧ (adjacent_to board size i j = 2 ∨ adjacent_to board size i j = 3)

/-- The cell `(i, j)` takes the branch that increments `loneliness`. -/
def is_lonely (board : Board) (size i j : Nat) : Prop :=
  board i j ≠ 0 ∧ adjacent_to board size i j < 2

/-- The cell `(i, j)` takes the branch that increments `overcrowding`. -/
def is_crowded (board : Board) (size i j : Nat) : Prop :=
  board i j ≠ 0 ∧ adjacent_to board size i j > 3

instance (board : Board) (size i j : Nat) : Decidable (is_born board size i j) := by
  unfold is_born; infer_instance

instance (board : Board) (size i j : Nat) : Decidable (is_survival board size i j) := by
  unfold is_survival; infer_instance

instance (board : Board) (size i j : Nat) : Decidable (is_lonely board size i j) := by
  unfold is_lonely; infer_instance

instance (board : Board) (size i j : Nat) : Decidable (is_crowded board size i j) := by
  unfold is_crowded; infer_instance

/-- The loop body of `thread` at the linear index `x`. -/
def cell_step (board : Board) (size : Nat) (r : Board × stats_t) (x : Nat) : Board × stats_t :=
  thread_cell board size (x / size) (x % size) r.1 r.2

/-- The number of terms `start, start + jump, ...` below `bound`. -/
def stride_count (bound start jump : Nat) : Nat := (bound - start + jump - 1) / jump

/-- Every counter of the record is a value of `unsigned int`. -/
def stats_ok (st : stats_t) : Prop :=
  st.borns < UINT_MOD ∧ st.survivals < UINT_MOD ∧ st.loneliness < UINT_MOD
    ∧ st.overcrowding < UINT_MOD

/-- The number of indices `x` of `L` whose cell `(x / size, x % size)` satisfies `p`. -/
def idx_count (p : Nat → Nat → Prop) [∀ i j, Decidable (p i j)] (size : Nat) (L : List Nat) :
    Nat :=
  L.countP (fun x => decide (p (x / size) (x % size)))

/-- The private record of a worker that visited the indices `L`. -/
def list_stats (board : Board) (size : Nat) (L : List Nat) : stats_t :=
  { borns := idx_count (is_born board size) size L % UINT_MOD
    survivals := idx_count (is_survival board size) size L % UINT_MOD
    loneliness := idx_count (is_lonely board size) size L % UINT_MOD
    overcrowding := idx_count (is_crowded board size) size L % UINT_MOD }

/-- The indices visited by worker `k` of `W` on a board of `size * size` cells. -/
def worker_list (size W k : Nat) : List Nat :=
  List.range' k (stride_count (size * size) k W) W

/-- The record returned by `play` on the board `board`. -/
def total_stats (board : Board) (size : Nat) : stats_t :=
  list_stats board size (List.range (size * size))

/-- The number of cells `(i, j)` of the grid that satisfy `p`. -/
def cell_count (size : Nat) (p : Nat → Nat → Prop) [∀ i j, Decidable (p i j)] : Nat :=
  ((Finset.range size ×ˢ Finset.range size).filter (fun q : Nat × Nat => p q.1 q.2)).card

/-- The cell `(i, j)` takes the branch that increments no counter. -/
def is_unchanged (board : Board) (size i j : Nat) : Prop :=
  board i j = 0 ∧ adjacent_to board size i j ≠ 3

instance (board : Board) (size i j : Nat) : Decidable (is_unchanged board size i j) := by
  unfold is_unchanged; infer_instance

/-! ## Interleaved workers: definitions -/

/-- The state of a step while its workers run: the content of `newboard` and
the local variables of each worker. -/
structure step_state where
  newboard : Board
  locals : Nat → thread_locals

/-- Worker `k` of `W` runs the next iteration of its loop, if it has one left. -/
def worker_step (board : Board) (size W : Nat) (s : step_state) (k : Nat) : step_state :=
  if k < W ∧ (s.locals k).i < size then
    let r := thread_body board size W s.newboard (s.locals k)
    { newboard := r.1, locals := fun m => if m = k then r.2 else s.locals m }
  else s

/-- The workers of `play` at their creation: worker `k` has `start = k`. -/
def step_init (newboard : Board) (size : Nat) : step_state :=
  { newboard := newboard
    locals := fun k =>
      { i := k / size, j := k % size, counter := k, thread_stats := stats_zero } }

/-- The function `play` with the loop iterations of its workers interleaved in
the order given by `sched`, a list of worker numbers.  The join returns when
every worker has left its loop; if one has not when the schedule ends, the
result is `none`. -/
def play_interleaved (sched : List Nat) (board newboard : Board) (size threads : Nat) :
    Option (Board × stats_t) :=
  let W := effective_threads size threads
  let s := sched.foldl (worker_step board size W) (step_init newboard size)
  if ∀ k ∈ List.range W, ¬ (s.locals k).i < size then
    some (s.newboard,
      ((List.range W).map (fun k => (s.locals k).thread_stats)).foldl stats_add stats_zero)
  else none

/-- The invariant of an interleaved step in which worker `k` has run `m k`
iterations of its loop. -/
def step_inv (board newboard : Board) (size W : Nat) (m : Nat → Nat) (s : step_state) : Prop :=
  (∀ k, k < W → m k ≤ stride_count (size * size) k W
    ∧ s.locals k = { i := (k + W * m k) / size, j := (k + W * m k) % size
                     counter := k + W * m k
                     thread_stats := list_stats board size (List.range' k (m k) W) })
  ∧ ∀ i j, s.newboard i j =
      if (∃ k, k < W ∧ ∃ x ∈ List.range' k (m k) W, x / size = i ∧ x % size = j)
      then cell_next board size i j else newboard i j

/-- The iteration counts after worker `k` was scheduled once more. -/
def progress_step (size W : Nat) (m : Nat → Nat) (k : Nat) : Nat → Nat :=
  fun n => if n = k ∧ k < W ∧ m k < stride_count (size * size) k W then m k + 1 else m n

/-! ## The index conversion, `read_file`, the glider, the checks of `main`: definitions -/

/-- The conversion of a linear index to a coordinate in `thread`:
`i = counter / size, j = counter % size` (`thread_body_coord`). -/
def index_coord (size idx : Nat) : Nat × Nat := (idx / size, idx % size)

/-- The linear index of the coordinate `(i, j)`. -/
def coord_index (size : Nat) (c : Nat × Nat) : Nat := c.1 * size + c.2

/-- The loop condition of `thread` at the linear index `idx`: `i < size` with
`i = idx / size`. -/
def loop_cond (size idx : Nat) : Prop := (index_coord size idx).1 < size

/-- The function `read_file` of `gol.c`, after the first line has been skipped:
`s j` is the content of the buffer `s` after the `fgets` for line `j`, and the
two loops store `board[i][j] = (s[i] == 'x')`. -/
def read_file (s : Nat → Nat → Char) (board : Board) (size : Nat) : Board :=
  (List.range size).foldl
    (fun b j => (List.range size).foldl
      (fun b i => b.set i j (if s j i = 'x' then 1 else 0)) b)
    board

/-- The board whose live cells are the coordinates listed in `cells`. -/
def pattern (cells : List (Nat × Nat)) : Board :=
  fun i j => if (i, j) ∈ cells then 1 else 0

/-- The live cells of the glider after `k` steps, for `k ≤ 4`; generation 0 is
the glider at the top left corner and generation 4 the same glider one row down
and one column to the right. -/
def glider_gen : Nat → List (Nat × Nat)
  | 0 => [(0, 1), (1, 2), (2, 0), (2, 1), (2, 2)]
  | 1 => [(1, 0), (1, 2), (2, 1), (2, 2), (3, 1)]
  | 2 => [(1, 2), (2, 0), (2, 2), (3, 1), (3, 2)]
  | 3 => [(1, 1), (2, 2), (2, 3), (3, 1), (3, 2)]
  | 4 => [(1, 2), (2, 3), (3, 1), (3, 2), (3, 3)]
  | _ => []

/-- The calls of `play` made by `main`, each recorded by its arguments
`(size, threads)`.  `main` returns before its loop when `argc != 3`, when
`fopen` fails, or when `atoi(argv[2]) < 1`.  The values `size` and `steps` read
by `fscanf` are not tested, and the loop `for (i = 0; i < steps; i++)` calls
`play(prev, next, size, threads)` once per iteration. -/
def main_play_calls (argc : Int) (fopen_ok : Bool) (threads size steps : Int) :
    List (Int × Int) :=
  if argc ≠ 3 then []
  else if fopen_ok = false then []
  else if threads < 1 then []
  else List.replicate steps.toNat (size, threads)

/-! ## Boards in memory: definitions -/

/-- The memory that holds the boards: the content of the buffer at each
address. -/
abbrev Memory := Nat → Board

/-- The body of the loop of `thread` on boards held in memory, `board` and
`newboard` being the addresses of the two buffers: the cell update of
`thread_cell`, whose reads of `board` all come before its one store into
`newboard`. -/
def thread_cell_mem (m : Memory) (board newboard size i j : Nat) (st : stats_t) :
    Memory × stats_t :=
  let r := thread_cell (m board) size i j (m newboard) st
  (fun q => if q = newboard then r.1 else m q, r.2)

/-- One iteration of the loop of `thread` on boards held in memory. -/
def thread_body_mem (m : Memory) (board newboard size jump : Nat) (s : thread_locals) :
    Memory × thread_locals :=
  let r := thread_cell_mem m board newboard size s.i s.j s.thread_stats
  let counter := s.counter + jump
  (r.1, { i := counter / size, j := counter % size, counter := counter, thread_stats := r.2 })

/-- The loop of `thread` on boards held in memory, with a fuel bound. -/
def thread_loop_mem (board newboard size jump : Nat) :
    Nat → Memory → thread_locals → Option (Memory × stats_t)
  | 0, _, _ => none
  | fuel + 1, m, s =>
    if s.i < size then
      let r := thread_body_mem m board newboard size jump s
      thread_loop_mem board newboard size jump fuel r.1 r.2
    else
      some (m, s.thread_stats)

/-- The function `thread` on boards held in memory. -/
def thread_mem (fuel : Nat) (m : Memory) (board newboard : Nat) (params : thread_args_t) :
    Option (Memory × stats_t) :=
  thread_loop_mem board newboard params.size params.jump fuel m
    { i := params.start / params.size, j := params.start % params.size,
      counter := params.start, thread_stats := stats_zero }

/-- The workers of one step on boards held in memory, run in the order of
creation. -/
def run_threads_mem (fuel : Nat) (board newboard : Nat) :
    List thread_args_t → Memory → Option (Memory × List stats_t)
  | [], m => some (m, [])
  | params :: rest, m =>
    match thread_mem fuel m board newboard params with
    | none => none
    | some (m1, st) =>
      match run_threads_mem fuel board newboard rest m1 with
      | none => none
      | some (m2, sts) => some (m2, st :: sts)

/-- The function `play` on boards held in memory: the result is the memory after
the call and the returned statistics. -/
def play_mem (fuel : Nat) (m : Memory) (board newboard size threads : Nat) :
    Option (Memory × stats_t) :=
  match run_threads_mem fuel board newboard (play_args size threads) m with
  | none => none
  | some (m1, sts) => some (m1, sts.foldl stats_add stats_zero)

/-- The memory `m` with the buffer at `newboard` replaced by `nb`. -/
def Memory.put (m : Memory) (newboard : Nat) (nb : Board) : Memory :=
  fun q => if q = newboard then nb else m q

/-! ## The neighbour count -/

theorem foldl_add_eq_sum (g : Nat → Nat) (l : List Nat) (c : Nat) :
    l.foldl (fun c k => c + g k) c = c + (l.map g).sum := by
  induction l generalizing c with
  | nil => simp
  | cons x xs ih => simp [ih, Nat.add_assoc]

theorem clamp_range_sum (n i : Nat) (g : Nat → Nat) :
    ((List.range' (if i > 0 then i - 1 else i)
      ((if i + 1 < n then i + 1 else i) + 1 - (if i > 0 then i - 1 else i))).map g).sum
      = window_sum n i g := by
  unfold window_sum
  by_cases h0 : i > 0 <;> by_cases h1 : i + 1 < n
  · have e : i + 1 + 1 - (i - 1) = 3 := by omega
    have e2 : i - 1 + 1 = i := by omega
    simp [h0, h1, e, List.range', e2, Nat.add_assoc]
  · have e : i + 1 - (i - 1) = 2 := by omega
    have e2 : i - 1 + 1 = i := by omega
    simp [h0, h1, e, List.range', e2]
  · have e0 : i = 0 := by omega
    subst e0
    simp [h1, List.range']
  · have e0 : i = 0 := by omega
    subst e0
    simp [h1, List.range']

theorem adjacent_row_eq (board : Board) (size k j c : Nat) :
    adjacent_row board k (if j > 0 then j - 1 else j) (if j + 1 < size then j + 1 else j) c
      = c + window_sum size j (board k) := by
  unfold adjacent_row
  rw [foldl_add_eq_sum, clamp_range_sum]

theorem adjacent_to_eq_window (board : Board) (size i j : Nat) :
    adjacent_to board size i j
      = window_sum size i (fun k => window_sum size j (board k)) - board i j := by
  unfold adjacent_to
  simp only [adjacent_row_eq]
  rw [foldl_add_eq_sum, clamp_range_sum]
  simp

theorem near_iff (k i : Nat) : |(k : Int) - (i : Int)| ≤ 1 ↔ k ≤ i + 1 ∧ i ≤ k + 1 := by
  rw [abs_le]; omega

theorem sum_range_near (n i : Nat) (g : Nat → Nat) (hi : i < n) :
    (∑ k in Finset.range n, if |(k : Int) - (i : Int)| ≤ 1 then g k else 0)
      = window_sum n i g := by
  rw [← Finset.sum_filter]
  unfold window_sum
  by_cases h0 : i > 0 <;> by_cases h1 : i + 1 < n
  · have e : (Finset.range n).filter (fun k : Nat => |(k : Int) - (i : Int)| ≤ 1)
        = {i - 1, i, i + 1} := by
      ext k; simp only [Finset.mem_filter, Finset.mem_range, near_iff, Finset.mem_insert,
        Finset.mem_singleton]; omega
    rw [e, Finset.sum_insert (by simp; omega), Finset.sum_insert (by simp)]
    simp [h0, h1, Nat.add_assoc]
  · have e : (Finset.range n).filter (fun k : Nat => |(k : Int) - (i : Int)| ≤ 1)
        = {i - 1, i} := by
      ext k; simp only [Finset.mem_filter, Finset.mem_range, near_iff, Finset.mem_insert,
        Finset.mem_singleton]; omega
    rw [e, Finset.sum_insert (by simp; omega)]
    simp [h0, h1]
  · have e : (Finset.range n).filter (fun k : Nat => |(k : Int) - (i : Int)| ≤ 1)
        = {i, i + 1} := by
      ext k; simp only [Finset.mem_filter, Finset.mem_range, near_iff, Finset.mem_insert,
        Finset.mem_singleton]; omega
    rw [e, Finset.sum_insert (by simp)]
    simp [h0, h1]
  · have e : (Finset.range n).filter (fun k : Nat => |(k : Int) - (i : Int)| ≤ 1)
        = {i} := by
      ext k; simp only [Finset.mem_filter, Finset.mem_range, near_iff,
        Finset.mem_singleton]; omega
    rw [e]
    simp [h0, h1]

theorem live_neighbours_add (board : Board) (size i j : Nat) (hi : i < size) (hj : j < size)
    (hb : ∀ k l, k < size → l < size → board k l = 0 ∨ board k l = 1) :
    live_neighbours board size i j + board i j
      = window_sum size i (fun k => window_sum size j (board k)) := by
  have hw : window_sum size i (fun k => window_sum size j (board k))
      = ∑ k in Finset.range size, ∑ l in Finset.range size,
          if |(k : Int) - (i : Int)| ≤ 1 then
            (if |(l : Int) - (j : Int)| ≤ 1 then board k l else 0) else 0 := by
    rw [← sum_range_near size i _ hi]
    apply Finset.sum_congr rfl
    intro k _
    by_cases hk : |(k : Int) - (i : Int)| ≤ 1
    · simp only [hk, if_true]; rw [sum_range_near size j _ hj]
    · simp [hk]
  have hc : board i j = ∑ k in Finset.range size, ∑ l in Finset.range size,
      if (k, l) = (i, j) then board k l else 0 := by
    rw [Finset.sum_eq_single i, Finset.sum_eq_single j]
    · simp
    · intro l _ hl; simp [hl]
    · intro h; simp at h; omega
    · intro k _ hk; apply Finset.sum_eq_zero; intro l _; simp [hk]
    · intro h; simp at h; omega
  unfold live_neighbours
  rw [Finset.card_filter, Finset.sum_product, hw]
  rw [hc]
  rw [← Finset.sum_add_distrib]
  apply Finset.sum_congr rfl
  intro k hk
  rw [← Finset.sum_add_distrib]
  apply Finset.sum_congr rfl
  intro l hl
  simp only [Finset.mem_range] at hk hl
  have hi0 : |(i : Int) - (i : Int)| ≤ 1 := by simp
  have hj0 : |(j : Int) - (j : Int)| ≤ 1 := by simp
  by_cases e : (k, l) = (i, j)
  · obtain ⟨rfl, rfl⟩ := Prod.mk.inj e
    simp [hi0, hj0]
  · rcases hb k l hk hl with h | h <;>
      by_cases h1 : |(k : Int) - (i : Int)| ≤ 1 <;>
      by_cases h2 : |(l : Int) - (j : Int)| ≤ 1 <;> simp [e, h, h1, h2]

/-! ## The worker -/

theorem thread_cell_board (board : Board) (size i j : Nat) (nb : Board) (st : stats_t) :
    (thread_cell board size i j nb st).1 = nb.set i j (cell_next board size i j) := by
  unfold thread_cell cell_next
  simp only []
  split_ifs <;> first | rfl | omega

theorem thread_cell_stats (board : Board) (size i j : Nat) (nb : Board) (st : stats_t) :
    (thread_cell board size i j nb st).2 =
      { borns := if is_born board size i j then (st.borns + 1) % UINT_MOD else st.borns
        survivals := if is_survival board size i j then (st.survivals + 1) % UINT_MOD
          else st.survivals
        loneliness := if is_lonely board size i j then (st.loneliness + 1) % UINT_MOD
          else st.loneliness
        overcrowding := if is_crowded board size i j then (st.overcrowding + 1) % UINT_MOD
          else st.overcrowding } := by
  unfold thread_cell is_born is_survival is_lonely is_crowded
  simp only []
  split_ifs <;> simp_all <;> omega

theorem thread_loop_eq_foldl (board : Board) (size jump : Nat) :
    ∀ (fuel : Nat) (nb : Board) (s : thread_locals),
      s.i = s.counter / size → s.j = s.counter % size →
      thread_loop board size jump fuel nb s
        = (thread_indices size jump fuel s.i s.counter).map
            (fun L => L.foldl (cell_step board size) (nb, s.thread_stats)) := by
  intro fuel
  induction fuel with
  | zero => intro nb s _ _; rfl
  | succ n ih =>
    intro nb s hi hj
    unfold thread_loop thread_indices
    by_cases h : s.i < size
    · simp only [h, if_true]
      rw [ih _ _ rfl rfl]
      simp only [thread_body, Option.map_map]
      congr 1
      funext L
      simp [cell_step, hi, hj]
    · simp [h]

theorem thread_eq_foldl_indices (fuel : Nat) (board newboard : Board)
    (params : thread_args_t) :
    thread fuel board newboard params
      = (worker_indices fuel params).map
          (fun L => L.foldl (cell_step board params.size) (newboard, stats_zero)) :=
  thread_loop_eq_foldl board params.size params.jump fuel newboard _ rfl rfl

theorem stride_count_zero (bound start jump : Nat) (hj : 0 < jump) (h : bound ≤ start) :
    stride_count bound start jump = 0 := by
  unfold stride_count
  apply Nat.div_eq_of_lt
  omega

theorem stride_count_succ (bound start jump : Nat) (hj : 0 < jump) (h : start < bound) :
    stride_count bound start jump = stride_count bound (start + jump) jump + 1 := by
  unfold stride_count
  by_cases h2 : start + jump ≤ bound
  · have : bound - start + jump - 1 = (bound - (start + jump) + jump - 1) + jump := by omega
    rw [this, Nat.add_div_right _ hj]
  · have e1 : bound - (start + jump) + jump - 1 = jump - 1 := by omega
    rw [e1, Nat.div_eq_of_lt (show jump - 1 < jump by omega)]
    have e2 : bound - start + jump - 1 = (bound - start - 1) + jump := by omega
    rw [e2, Nat.add_div_right _ hj, Nat.div_eq_of_lt (show bound - start - 1 < jump by omega)]

theorem thread_indices_eq (size jump : Nat) (hs : 0 < size) (hj : 0 < jump) :
    ∀ (fuel c : Nat), size * size - c < fuel →
      thread_indices size jump fuel (c / size) c
        = some (List.range' c (stride_count (size * size) c jump) jump) := by
  intro fuel
  induction fuel with
  | zero => intro c h; omega
  | succ n ih =>
    intro c h
    unfold thread_indices
    by_cases hc : c / size < size
    · have hlt : c < size * size := (Nat.div_lt_iff_lt_mul hs).1 hc
      simp only [hc, if_true]
      rw [ih (c + jump) (by omega), stride_count_succ _ _ _ hj hlt]
      simp [List.range']
    · have hge : size * size ≤ c := by
        by_contra hlt
        exact hc ((Nat.div_lt_iff_lt_mul hs).2 (by omega))
      simp [hc, stride_count_zero _ _ _ hj hge]

theorem mem_stride (bound k jump x : Nat) (hk : k < jump) :
    x ∈ List.range' k (stride_count bound k jump) jump ↔ x < bound ∧ x % jump = k := by
  have hj : 0 < jump := by omega
  rw [List.mem_range']
  constructor
  · rintro ⟨m, hm, rfl⟩
    refine ⟨?_, ?_⟩
    · unfold stride_count at hm
      have h1 : (m + 1) * jump ≤ bound - k + jump - 1 := (Nat.le_div_iff_mul_le hj).1 hm
      rw [Nat.add_mul, Nat.mul_comm m jump] at h1
      omega
    · rw [Nat.add_mul_mod_self_left, Nat.mod_eq_of_lt hk]
  · rintro ⟨hx, rfl⟩
    refine ⟨x / jump, ?_, (Nat.mod_add_div x jump).symm⟩
    unfold stride_count
    apply (Nat.le_div_iff_mul_le hj).2
    have h2 := Nat.mod_add_div x jump
    rw [Nat.succ_mul, Nat.mul_comm (x / jump) jump]
    omega

theorem foldl_cell_step_board (board : Board) (size : Nat) :
    ∀ (L : List Nat) (nb : Board) (st : stats_t) (i j : Nat),
      (L.foldl (cell_step board size) (nb, st)).1 i j
        = if (∃ x ∈ L, x / size = i ∧ x % size = j) then cell_next board size i j
          else nb i j := by
  intro L
  induction L with
  | nil => intro nb st i j; simp
  | cons x xs ih =>
    intro nb st i j
    rw [List.foldl_cons]
    have hstep : cell_step board size (nb, st) x
        = ((cell_step board size (nb, st) x).1, (cell_step board size (nb, st) x).2) := rfl
    rw [hstep, ih]
    simp only [cell_step, thread_cell_board, Board.set, List.mem_cons, exists_eq_or_imp]
    by_cases h1 : ∃ a ∈ xs, a / size = i ∧ a % size = j
    · simp [h1]
    · by_cases h2 : x / size = i ∧ x % size = j
      · obtain ⟨rfl, rfl⟩ := h2
        simp [h1]
      · have h3 : ¬ (i = x / size ∧ j = x % size) := fun h => h2 ⟨h.1.symm, h.2.symm⟩
        simp [h1, h2, h3]

theorem foldl_cell_step_stats (board : Board) (size : Nat) :
    ∀ (L : List Nat) (nb : Board) (st : stats_t), stats_ok st →
      (L.foldl (cell_step board size) (nb, st)).2
        = { borns := (st.borns + idx_count (is_born board size) size L) % UINT_MOD
            survivals := (st.survivals + idx_count (is_survival board size) size L) % UINT_MOD
            loneliness := (st.loneliness + idx_count (is_lonely board size) size L) % UINT_MOD
            overcrowding :=
              (st.overcrowding + idx_count (is_crowded board size) size L) % UINT_MOD } := by
  intro L
  induction L with
  | nil =>
    intro nb st h
    obtain ⟨h1, h2, h3, h4⟩ := h
    simp [idx_count, Nat.mod_eq_of_lt, h1, h2, h3, h4]
  | cons x xs ih =>
    intro nb st h
    obtain ⟨h1, h2, h3, h4⟩ := h
    rw [List.foldl_cons]
    have hstep : cell_step board size (nb, st) x
        = ((cell_step board size (nb, st) x).1, (cell_step board size (nb, st) x).2) := rfl
    have hM : 0 < UINT_MOD := by unfold UINT_MOD; norm_num
    rw [hstep, ih]
    · simp only [cell_step, thread_cell_stats, idx_count, List.countP_cons]
      congr 1
      · by_cases hb : is_born board size (x / size) (x % size) <;> simp [hb, Nat.add_assoc, Nat.add_comm 1]
      · by_cases hb : is_survival board size (x / size) (x % size) <;> simp [hb, Nat.add_assoc, Nat.add_comm 1]
      · by_cases hb : is_lonely board size (x / size) (x % size) <;> simp [hb, Nat.add_assoc, Nat.add_comm 1]
      · by_cases hb : is_crowded board size (x / size) (x % size) <;> simp [hb, Nat.add_assoc, Nat.add_comm 1]
    · simp only [cell_step, thread_cell_stats, stats_ok]
      refine ⟨?_, ?_, ?_, ?_⟩ <;> split_ifs <;> first | assumption | exact Nat.mod_lt _ hM

theorem stats_ok_zero : stats_ok stats_zero := by
  unfold stats_ok stats_zero UINT_MOD; norm_num

theorem foldl_cell_step_zero (board : Board) (size : Nat) (L : List Nat) (nb : Board) :
    (L.foldl (cell_step board size) (nb, stats_zero)).2 = list_stats board size L := by
  rw [foldl_cell_step_stats board size L nb stats_zero stats_ok_zero]
  simp [stats_zero, list_stats]

theorem thread_eq (board : Board) (size W k fuel : Nat) (nb : Board)
    (hs : 0 < size) (hW : 0 < W) (hf : size * size < fuel) :
    thread fuel board nb { size := size, start := k, jump := W }
      = some ((worker_list size W k).foldl (cell_step board size) (nb, stats_zero)) := by
  unfold thread
  rw [thread_loop_eq_foldl board size W fuel nb _ rfl rfl]
  simp only []
  rw [thread_indices_eq size W hs hW fuel k (by omega)]
  rfl

theorem run_threads_eq (board : Board) (size W fuel : Nat)
    (hs : 0 < size) (hW : 0 < W) (hf : size * size < fuel) :
    ∀ (ks : List Nat) (nb : Board), ∃ nb2 : Board,
      run_threads fuel board (ks.map (fun k => { size := size, start := k, jump := W })) nb
        = some (nb2, ks.map (fun k => list_stats board size (worker_list size W k)))
      ∧ ∀ i j, nb2 i j =
          if (∃ k ∈ ks, ∃ x ∈ worker_list size W k, x / size = i ∧ x % size = j)
          then cell_next board size i j else nb i j := by
  intro ks
  induction ks with
  | nil => intro nb; exact ⟨nb, rfl, by simp⟩
  | cons k ks ih =>
    intro nb
    obtain ⟨nb2, h2, hcell⟩ :=
      ih ((worker_list size W k).foldl (cell_step board size) (nb, stats_zero)).1
    refine ⟨nb2, ?_, ?_⟩
    · simp only [List.map_cons, run_threads, thread_eq board size W k fuel nb hs hW hf, h2,
        foldl_cell_step_zero]
    · intro i j
      rw [hcell, foldl_cell_step_board]
      by_cases h1 : ∃ k ∈ ks, ∃ x ∈ worker_list size W k, x / size = i ∧ x % size = j
      · simp [h1]
      · by_cases h0 : ∃ x ∈ worker_list size W k, x / size = i ∧ x % size = j
        · simp [h0]
        · simp [h0, h1]

theorem foldl_stats_add (sts : List stats_t) :
    ∀ acc : stats_t, stats_ok acc →
      sts.foldl stats_add acc
        = { borns := (acc.borns + (sts.map (fun s => s.borns)).sum) % UINT_MOD
            survivals := (acc.survivals + (sts.map (fun s => s.survivals)).sum) % UINT_MOD
            loneliness := (acc.loneliness + (sts.map (fun s => s.loneliness)).sum) % UINT_MOD
            overcrowding :=
              (acc.overcrowding + (sts.map (fun s => s.overcrowding)).sum) % UINT_MOD } := by
  induction sts with
  | nil =>
    intro acc h
    obtain ⟨h1, h2, h3, h4⟩ := h
    simp [Nat.mod_eq_of_lt, h1, h2, h3, h4]
  | cons s sts ih =>
    intro acc _
    have hM : 0 < UINT_MOD := by unfold UINT_MOD; norm_num
    rw [List.foldl_cons, ih]
    · simp [stats_add, Nat.add_assoc]
    · exact ⟨Nat.mod_lt _ hM, Nat.mod_lt _ hM, Nat.mod_lt _ hM, Nat.mod_lt _ hM⟩

theorem list_sum_range (f : Nat → Nat) (n : Nat) :
    ((List.range n).map f).sum = ∑ k in Finset.range n, f k := by
  induction n with
  | zero => simp
  | succ n ih => simp [List.range_succ, Finset.sum_range_succ, ih]

theorem countP_eq_card (p : Nat → Bool) (L : List Nat) (hL : L.Nodup) :
    L.countP p = (L.toFinset.filter (fun x => p x = true)).card := by
  rw [List.countP_eq_length_filter, ← List.toFinset_card_of_nodup (hL.filter _),
    List.toFinset_filter]

theorem worker_list_toFinset (size W k : Nat) (hk : k < W) :
    (worker_list size W k).toFinset
      = (Finset.range (size * size)).filter (fun x => x % W = k) := by
  ext x
  simp [worker_list, mem_stride _ _ _ _ hk]

theorem sum_countP_worker_list (p : Nat → Bool) (size W : Nat) (hW : 0 < W) :
    ((List.range W).map (fun k => (worker_list size W k).countP p)).sum
      = (List.range (size * size)).countP p := by
  have hr : (List.range (size * size)).toFinset = Finset.range (size * size) := by
    ext x; simp
  rw [list_sum_range, countP_eq_card p _ (List.nodup_range _), hr]
  rw [Finset.card_eq_sum_card_fiberwise (f := fun x => x % W) (t := Finset.range W)]
  · apply Finset.sum_congr rfl
    intro k hk
    rw [Finset.mem_range] at hk
    have hn : (worker_list size W k).Nodup := List.nodup_range' _ _ _ hW
    rw [countP_eq_card p _ hn, worker_list_toFinset _ _ _ hk,
      Finset.filter_filter, Finset.filter_filter]
    congr 1
    ext x
    simp [and_comm]
  · intro x _
    simp [Nat.mod_lt _ hW]

theorem effective_threads_pos (size threads : Nat) (hs : 0 < size) (ht : 0 < threads) :
    0 < effective_threads size threads := by
  unfold effective_threads
  split_ifs
  · exact Nat.mul_pos hs hs
  · exact ht

theorem effective_threads_eq_min (size threads : Nat) :
    effective_threads size threads = min threads (size * size) := by
  unfold effective_threads
  split_ifs <;> omega

theorem covered_iff (size W i j : Nat) (hs : 0 < size) (hW : 0 < W) :
    (∃ k ∈ List.range W, ∃ x ∈ worker_list size W k, x / size = i ∧ x % size = j)
      ↔ i < size ∧ j < size := by
  constructor
  · rintro ⟨k, hk, x, hx, rfl, rfl⟩
    rw [List.mem_range] at hk
    rw [worker_list, mem_stride _ _ _ _ hk] at hx
    exact ⟨(Nat.div_lt_iff_lt_mul hs).2 hx.1, Nat.mod_lt _ hs⟩
  · rintro ⟨hi, hj⟩
    refine ⟨(i * size + j) % W, List.mem_range.2 (Nat.mod_lt _ hW), i * size + j, ?_, ?_, ?_⟩
    · rw [worker_list, mem_stride _ _ _ _ (Nat.mod_lt _ hW)]
      refine ⟨?_, rfl⟩
      calc i * size + j < i * size + size := by omega
        _ = (i + 1) * size := by ring
        _ ≤ size * size := Nat.mul_le_mul_right _ hi
    · rw [Nat.add_comm, Nat.add_mul_div_right _ _ hs, Nat.div_eq_of_lt hj, Nat.zero_add]
    · rw [Nat.add_comm, Nat.add_mul_mod_self_right, Nat.mod_eq_of_lt hj]

theorem sum_mod_worker_counts (p : Nat → Bool) (size W : Nat) (hW : 0 < W) :
    ((List.range W).map (fun k => (worker_list size W k).countP p % UINT_MOD)).sum % UINT_MOD
      = (List.range (size * size)).countP p % UINT_MOD := by
  rw [← sum_countP_worker_list p size W hW, list_sum_range, list_sum_range,
    ← Finset.sum_nat_mod]

theorem join_worker_stats (board : Board) (size W : Nat) (hW : 0 < W) :
    ((List.range W).map (fun k => list_stats board size (worker_list size W k))).foldl
        stats_add stats_zero
      = total_stats board size := by
  rw [foldl_stats_add _ _ stats_ok_zero]
  simp only [List.map_map, Function.comp_def, list_stats, idx_count, stats_zero, Nat.zero_add,
    total_stats, sum_mod_worker_counts _ size W hW]

theorem play_spec (board newboard : Board) (size threads fuel : Nat)
    (hs : 0 < size) (ht : 0 < threads) (hf : size * size < fuel) :
    ∃ nb : Board, play fuel board newboard size threads = some (nb, total_stats board size)
      ∧ ∀ i j, nb i j = if i < size ∧ j < size then cell_next board size i j
          else newboard i j := by
  have hW := effective_threads_pos size threads hs ht
  obtain ⟨nb, hrun, hcell⟩ := run_threads_eq board size (effective_threads size threads) fuel
    hs hW hf (List.range (effective_threads size threads)) newboard
  refine ⟨nb, ?_, ?_⟩
  · unfold play play_args
    simp only [hrun, join_worker_stats board size _ hW]
  · intro i j
    rw [hcell]
    by_cases h : i < size ∧ j < size
    · rw [if_pos ((covered_iff size _ i j hs hW).2 h), if_pos h]
    · rw [if_neg (fun h2 => h ((covered_iff size _ i j hs hW).1 h2)), if_neg h]

theorem idx_count_range (p : Nat → Nat → Prop) [∀ i j, Decidable (p i j)] (size : Nat)
    (hs : 0 < size) :
    idx_count p size (List.range (size * size)) = cell_count size p := by
  have hr : (List.range (size * size)).toFinset = Finset.range (size * size) := by
    ext x; simp
  unfold idx_count cell_count
  rw [countP_eq_card _ _ (List.nodup_range _), hr]
  apply Finset.card_nbij' (fun x => (x / size, x % size)) (fun q => q.1 * size + q.2)
  · intro x hx
    simp only [Finset.mem_coe, Finset.mem_filter, Finset.mem_range, decide_eq_true_eq,
      Finset.mem_product] at hx ⊢
    exact ⟨⟨(Nat.div_lt_iff_lt_mul hs).2 hx.1, Nat.mod_lt _ hs⟩, hx.2⟩
  · rintro ⟨i, j⟩ hq
    simp only [Finset.mem_coe, Finset.mem_filter, Finset.mem_range, decide_eq_true_eq,
      Finset.mem_product] at hq ⊢
    obtain ⟨⟨hi, hj⟩, hp⟩ := hq
    have e1 : (i * size + j) / size = i := by
      rw [Nat.add_comm, Nat.add_mul_div_right _ _ hs, Nat.div_eq_of_lt hj, Nat.zero_add]
    have e2 : (i * size + j) % size = j := by
      rw [Nat.add_comm, Nat.add_mul_mod_self_right, Nat.mod_eq_of_lt hj]
    refine ⟨?_, ?_⟩
    · calc i * size + j < i * size + size := by omega
        _ = (i + 1) * size := by ring
        _ ≤ size * size := Nat.mul_le_mul_right _ hi
    · rw [e1, e2]; exact hp
  · intro x _
    exact Nat.div_add_mod' x size
  · rintro ⟨i, j⟩ hq
    simp only [Finset.mem_coe, Finset.mem_filter, Finset.mem_range, Finset.mem_product] at hq
    obtain ⟨⟨_, hj⟩, _⟩ := hq
    have e1 : (i * size + j) / size = i := by
      rw [Nat.add_comm, Nat.add_mul_div_right _ _ hs, Nat.div_eq_of_lt hj, Nat.zero_add]
    have e2 : (i * size + j) % size = j := by
      rw [Nat.add_comm, Nat.add_mul_mod_self_right, Nat.mod_eq_of_lt hj]
    simp only [e1, e2]

theorem idx_count_le (p : Nat → Nat → Prop) [∀ i j, Decidable (p i j)] (size : Nat)
    (L : List Nat) : idx_count p size L ≤ L.length := List.countP_le_length _

theorem cell_count_congr (size : Nat) (p q : Nat → Nat → Prop) [∀ i j, Decidable (p i j)]
    [∀ i j, Decidable (q i j)] (h : ∀ i j, i < size → j < size → (p i j ↔ q i j)) :
    cell_count size p = cell_count size q := by
  unfold cell_count
  congr 1
  apply Finset.filter_congr
  rintro ⟨i, j⟩ hq
  simp only [Finset.mem_product, Finset.mem_range] at hq
  exact h i j hq.1 hq.2

theorem adjacent_to_eq_live (board : Board) (size i j : Nat) (hi : i < size) (hj : j < size)
    (hb : ∀ k l, k < size → l < size → board k l = 0 ∨ board k l = 1) :
    adjacent_to board size i j = live_neighbours board size i j := by
  rw [adjacent_to_eq_window, ← live_neighbours_add board size i j hi hj hb]
  omega

theorem adjacent_to_le_eight (board : Board) (size i j : Nat) (hi : i < size) (hj : j < size)
    (hb : ∀ k l, k < size → l < size → board k l = 0 ∨ board k l = 1) :
    adjacent_to board size i j ≤ 8 := by
  rw [adjacent_to_eq_window]
  have c : ∀ k l, k < size → l < size → @LE.le Nat _ (board k l) 1 := by
    intro k l hk hl
    rcases hb k l hk hl with h | h <;> simp [h]
  simp only [window_sum]
  split_ifs
  all_goals
    have a1 := c (i - 1) (j - 1) (by omega) (by omega)
    have a2 := c (i - 1) j (by omega) (by omega)
    have a4 := c i (j - 1) (by omega) (by omega)
    have a5 := c i j (by omega) (by omega)
    try have a3 := c (i - 1) (j + 1) (by omega) (by omega)
    try have a6 := c i (j + 1) (by omega) (by omega)
    try have a7 := c (i + 1) (j - 1) (by omega) (by omega)
    try have a8 := c (i + 1) j (by omega) (by omega)
    try have a9 := c (i + 1) (j + 1) (by omega) (by omega)
    omega

theorem cell_next_eq_transition (board : Board) (size i j : Nat)
    (h : board i j = 0 ∨ board i j = 1) :
    cell_next board size i j = transition (board i j) (adjacent_to board size i j) := by
  unfold cell_next transition
  rcases h with h | h <;> simp [h]

theorem worker_indices_eq (size W k fuel : Nat) (hs : 0 < size) (hW : 0 < W)
    (hf : size * size < fuel) :
    worker_indices fuel { size := size, start := k, jump := W } = some (worker_list size W k) := by
  unfold worker_indices worker_list
  exact thread_indices_eq size W hs hW fuel k (by omega)

theorem mem_play_args (size threads : Nat) (a : thread_args_t) :
    a ∈ play_args size threads ↔ ∃ k, k < effective_threads size threads
      ∧ a = { size := size, start := k, jump := effective_threads size threads } := by
  unfold play_args
  simp only [List.mem_map, List.mem_range]
  constructor
  · rintro ⟨k, hk, rfl⟩; exact ⟨k, hk, rfl⟩
  · rintro ⟨k, hk, rfl⟩; exact ⟨k, hk, rfl⟩

theorem worker_countP_le (p : Nat → Bool) (size W k : Nat) (hW : 0 < W) (hk : k < W) :
    (worker_list size W k).countP p ≤ size * size := by
  have hn : (worker_list size W k).Nodup := List.nodup_range' _ _ _ hW
  rw [countP_eq_card p _ hn, worker_list_toFinset _ _ _ hk]
  calc _ ≤ (Finset.range (size * size)).card :=
        Finset.card_le_card (fun x hx => (Finset.mem_filter.1 (Finset.mem_filter.1 hx).1).1)
    _ = size * size := Finset.card_range _

theorem sum_worker_counts_exact (p : Nat → Bool) (size W : Nat) (hW : 0 < W)
    (hfit : size * size < UINT_MOD) :
    ((List.range W).map (fun k => (worker_list size W k).countP p % UINT_MOD)).sum
      = (List.range (size * size)).countP p := by
  rw [← sum_countP_worker_list p size W hW]
  congr 1
  apply List.map_congr_left
  intro k hk
  exact Nat.mod_eq_of_lt (lt_of_le_of_lt
    (worker_countP_le p size W k hW (List.mem_range.1 hk)) hfit)

theorem range_countP_mod (p : Nat → Bool) (n : Nat) (hfit : n < UINT_MOD) :
    (List.range n).countP p % UINT_MOD = (List.range n).countP p := by
  apply Nat.mod_eq_of_lt
  have h := List.countP_le_length p (l := List.range n)
  rw [List.length_range] at h
  omega

theorem categories_partition (board : Board) (size : Nat) (L : List Nat) :
    idx_count (is_born board size) size L + idx_count (is_survival board size) size L
      + idx_count (is_lonely board size) size L + idx_count (is_crowded board size) size L
      + idx_count (is_unchanged board size) size L = L.length := by
  induction L with
  | nil => simp [idx_count]
  | cons x xs ih =>
    simp only [idx_count, List.countP_cons, List.length_cons] at ih ⊢
    have h1 : (if decide (is_born board size (x / size) (x % size)) = true then 1 else 0)
        + (if decide (is_survival board size (x / size) (x % size)) = true then 1 else 0)
        + (if decide (is_lonely board size (x / size) (x % size)) = true then 1 else 0)
        + (if decide (is_crowded board size (x / size) (x % size)) = true then 1 else 0)
        + (if decide (is_unchanged board size (x / size) (x % size)) = true then 1 else 0)
        = 1 := by
      simp only [decide_eq_true_eq, is_born, is_survival, is_lonely, is_crowded, is_unchanged]
      by_cases h0 : board (x / size) (x % size) = 0
      · simp only [h0, true_and, ne_eq, not_true_eq_false, false_and, if_false]
        split_ifs <;> omega
      · simp only [h0, false_and, ne_eq, not_false_eq_true, true_and, if_false]
        split_ifs <;> omega
    omega

theorem total_stats_exact (board : Board) (size : Nat) (hs : 0 < size)
    (hfit : size * size < UINT_MOD) :
    total_stats board size
      = { borns := cell_count size (is_born board size)
          survivals := cell_count size (is_survival board size)
          loneliness := cell_count size (is_lonely board size)
          overcrowding := cell_count size (is_crowded board size) } := by
  unfold total_stats list_stats
  simp only [← idx_count_range _ size hs]
  simp only [idx_count, range_countP_mod _ _ hfit]

theorem worker_stats_sum (board : Board) (size W : Nat) (hs : 0 < size) (hW : 0 < W)
    (hfit : size * size < UINT_MOD) :
    let sts := (List.range W).map (fun k => list_stats board size (worker_list size W k))
    (sts.map (fun s => s.borns)).sum = cell_count size (is_born board size)
    ∧ (sts.map (fun s => s.survivals)).sum = cell_count size (is_survival board size)
    ∧ (sts.map (fun s => s.loneliness)).sum = cell_count size (is_lonely board size)
    ∧ (sts.map (fun s => s.overcrowding)).sum = cell_count size (is_crowded board size) := by
  simp only [List.map_map, Function.comp_def, list_stats, ← idx_count_range _ size hs]
  simp only [idx_count, sum_worker_counts_exact _ size W hW hfit, and_self]

theorem blinker_binary : ∀ i j, i < 3 → j < 3 → blinker i j = 0 ∨ blinker i j = 1 := by
  intro i j _ _
  unfold blinker
  split_ifs <;> simp

theorem adjacent_to_dead (board : Board) (size i j : Nat) (hi : i < size) (hj : j < size)
    (hd : ∀ k l, k < size → l < size → board k l = 0) :
    adjacent_to board size i j = 0 := by
  rw [adjacent_to_eq_window]
  have c : ∀ k l, k < size → l < size → @Eq Nat (board k l) 0 := hd
  simp only [window_sum]
  split_ifs
  all_goals
    have a1 := c (i - 1) (j - 1) (by omega) (by omega)
    have a2 := c (i - 1) j (by omega) (by omega)
    have a4 := c i (j - 1) (by omega) (by omega)
    have a5 := c i j (by omega) (by omega)
    try have a3 := c (i - 1) (j + 1) (by omega) (by omega)
    try have a6 := c i (j + 1) (by omega) (by omega)
    try have a7 := c (i + 1) (j - 1) (by omega) (by omega)
    try have a8 := c (i + 1) j (by omega) (by omega)
    try have a9 := c (i + 1) (j + 1) (by omega) (by omega)
    omega

theorem total_stats_dead (board : Board) (size : Nat) (hs : 0 < size)
    (hd : ∀ k l, k < size → l < size → board k l = 0) :
    total_stats board size = stats_zero := by
  have hcell : ∀ x ∈ List.range (size * size),
      board (x / size) (x % size) = 0 ∧ adjacent_to board size (x / size) (x % size) = 0 := by
    intro x hx
    have hi : x / size < size := (Nat.div_lt_iff_lt_mul hs).2 (List.mem_range.1 hx)
    have hj : x % size < size := Nat.mod_lt _ hs
    exact ⟨hd _ _ hi hj, adjacent_to_dead board size _ _ hi hj hd⟩
  have e1 : idx_count (is_born board size) size (List.range (size * size)) = 0 := by
    unfold idx_count
    rw [List.countP_eq_zero]
    intro x hx
    simp [is_born, (hcell x hx).2]
  have e2 : idx_count (is_survival board size) size (List.range (size * size)) = 0 := by
    unfold idx_count
    rw [List.countP_eq_zero]
    intro x hx
    simp [is_survival, (hcell x hx).1]
  have e3 : idx_count (is_lonely board size) size (List.range (size * size)) = 0 := by
    unfold idx_count
    rw [List.countP_eq_zero]
    intro x hx
    simp [is_lonely, (hcell x hx).1]
  have e4 : idx_count (is_crowded board size) size (List.range (size * size)) = 0 := by
    unfold idx_count
    rw [List.countP_eq_zero]
    intro x hx
    simp [is_crowded, (hcell x hx).1]
  unfold total_stats list_stats
  rw [e1, e2, e3, e4]
  rfl

theorem play_dead (board newboard : Board) (size threads fuel : Nat)
    (hs : 0 < size) (ht : 0 < threads) (hf : size * size < fuel)
    (hd : ∀ k l, k < size → l < size → board k l = 0) :
    ∃ nb : Board, play fuel board newboard size threads = some (nb, stats_zero)
      ∧ ∀ i j, i < size → j < size → nb i j = 0 := by
  obtain ⟨nb, hp, hcell⟩ := play_spec board newboard size threads fuel hs ht hf
  rw [total_stats_dead board size hs hd] at hp
  refine ⟨nb, hp, ?_⟩
  intro i j hi hj
  rw [hcell, if_pos ⟨hi, hj⟩]
  simp [cell_next, hd i j hi hj, adjacent_to_dead board size i j hi hj hd]

/-! ## Interleaved workers -/

theorem lt_stride_count (bound k W m : Nat) (hk : k < W) :
    k + W * m < bound ↔ m < stride_count bound k W := by
  have hW : 0 < W := by omega
  constructor
  · intro h
    have hmem : k + W * m ∈ List.range' k (stride_count bound k W) W :=
      (mem_stride bound k W _ hk).2
        ⟨h, by rw [Nat.add_mul_mod_self_left, Nat.mod_eq_of_lt hk]⟩
    obtain ⟨i, hi, he⟩ := List.mem_range'.1 hmem
    have : m = i := Nat.eq_of_mul_eq_mul_left hW (by omega)
    omega
  · intro h
    have hmem : k + W * m ∈ List.range' k (stride_count bound k W) W :=
      List.mem_range'.2 ⟨m, h, rfl⟩
    exact ((mem_stride bound k W _ hk).1 hmem).1

theorem thread_cell_list_stats (board : Board) (size x : Nat) (nb : Board) (L : List Nat) :
    (thread_cell board size (x / size) (x % size) nb (list_stats board size L)).2
      = list_stats board size (L ++ [x]) := by
  have h := foldl_cell_step_zero board size (L ++ [x]) nb
  rw [List.foldl_append, List.foldl_cons, List.foldl_nil] at h
  have e : ∀ p : Board × stats_t,
      cell_step board size p x = thread_cell board size (x / size) (x % size) p.1 p.2 :=
    fun _ => rfl
  rw [e, thread_cell_stats, foldl_cell_step_zero] at h
  rw [thread_cell_stats]
  exact h

theorem step_inv_init (board newboard : Board) (size W : Nat) :
    step_inv board newboard size W (fun _ => 0) (step_init newboard size) := by
  refine ⟨?_, ?_⟩
  · intro k _
    refine ⟨Nat.zero_le _, ?_⟩
    simp [step_init, list_stats, idx_count, stats_zero]
  · intro i j
    simp [step_init]

theorem step_inv_step (board newboard : Board) (size W : Nat) (hs : 0 < size)
    (m : Nat → Nat) (s : step_state) (k : Nat) (h : step_inv board newboard size W m s) :
    step_inv board newboard size W (progress_step size W m k)
      (worker_step board size W s k) := by
  unfold worker_step
  obtain ⟨hm, hb⟩ := h
  by_cases hc : k < W ∧ (s.locals k).i < size
  · rw [if_pos hc]
    obtain ⟨hk, hi⟩ := hc
    obtain ⟨hle, hloc⟩ := hm k hk
    have hlt : k + W * m k < size * size := by
      rw [hloc] at hi
      exact (Nat.div_lt_iff_lt_mul hs).1 hi
    have hlt2 : m k < stride_count (size * size) k W := (lt_stride_count _ _ _ _ hk).1 hlt
    have hprog : progress_step size W m k = fun n => if n = k then m k + 1 else m n := by
      funext n
      simp [progress_step, hk, hlt2]
    rw [hprog]
    refine ⟨?_, ?_⟩
    · intro n hn
      by_cases e : n = k
      · subst e
        simp only [if_true]
        refine ⟨hlt2, ?_⟩
        rw [hloc]
        simp only [thread_body, thread_cell_list_stats, List.range'_concat, Nat.mul_add,
          Nat.mul_one, Nat.add_assoc]
      · simp only [e, if_false]
        exact hm n hn
    · intro i j
      simp only [thread_body, thread_cell_board, Board.set, hloc, hb]
      by_cases h1 : ∃ n, n < W ∧ ∃ x ∈ List.range' n (m n) W, x / size = i ∧ x % size = j
      · have h2 : ∃ n, n < W ∧ ∃ x ∈ List.range' n (if n = k then m k + 1 else m n) W,
            x / size = i ∧ x % size = j := by
          obtain ⟨n, hn, x, hx, hxi⟩ := h1
          refine ⟨n, hn, x, ?_, hxi⟩
          by_cases e : n = k
          · subst e
            simp only [if_true, List.range'_concat, List.mem_append]
            exact Or.inl hx
          · simpa only [e, if_false] using hx
        rw [if_pos h1, if_pos h2]
        split_ifs with h3
        · rw [h3.1, h3.2]
        · rfl
      · rw [if_neg h1]
        by_cases h3 : i = (k + W * m k) / size ∧ j = (k + W * m k) % size
        · have h2 : ∃ n, n < W ∧ ∃ x ∈ List.range' n (if n = k then m k + 1 else m n) W,
              x / size = i ∧ x % size = j := by
            refine ⟨k, hk, k + W * m k, ?_, h3.1.symm, h3.2.symm⟩
            simp [List.range'_concat]
          rw [if_pos h3, if_pos h2, h3.1, h3.2]
        · have h2 : ¬ ∃ n, n < W ∧ ∃ x ∈ List.range' n (if n = k then m k + 1 else m n) W,
              x / size = i ∧ x % size = j := by
            rintro ⟨n, hn, x, hx, hxi, hxj⟩
            by_cases e : n = k
            · subst e
              simp only [if_true, List.range'_concat, List.mem_append, List.mem_singleton] at hx
              rcases hx with hx | hx
              · exact h1 ⟨n, hn, x, hx, hxi, hxj⟩
              · subst hx
                exact h3 ⟨hxi.symm, hxj.symm⟩
            · simp only [e, if_false] at hx
              exact h1 ⟨n, hn, x, hx, hxi, hxj⟩
          rw [if_neg h3, if_neg h2]
  · rw [if_neg hc]
    have hprog : progress_step size W m k = m := by
      funext n
      unfold progress_step
      by_cases hk : k < W
      · have hi : ¬ (s.locals k).i < size := fun h => hc ⟨hk, h⟩
        rw [(hm k hk).2] at hi
        have h2 : ¬ (k + W * m k < size * size) :=
          fun h => hi ((Nat.div_lt_iff_lt_mul hs).2 h)
        rw [lt_stride_count _ _ _ _ hk] at h2
        simp [h2]
      · simp [hk]
    rw [hprog]
    exact ⟨hm, hb⟩

theorem step_inv_foldl (board newboard : Board) (size W : Nat) (hs : 0 < size)
    (sched : List Nat) :
    ∀ (m : Nat → Nat) (s : step_state), step_inv board newboard size W m s →
      step_inv board newboard size W (sched.foldl (progress_step size W) m)
        (sched.foldl (worker_step board size W) s) := by
  induction sched with
  | nil => intro m s h; exact h
  | cons k ks ih => intro m s h; exact ih _ _ (step_inv_step board newboard size W hs m s k h)

theorem progress_foldl (size W : Nat) (sched : List Nat) :
    ∀ (m : Nat → Nat) (k : Nat), k < W → m k ≤ stride_count (size * size) k W →
      sched.foldl (progress_step size W) m k
        = min (m k + sched.count k) (stride_count (size * size) k W) := by
  induction sched with
  | nil => intro m k _ h; simp [h]
  | cons a as ih =>
    intro m k hk h
    rw [List.foldl_cons, List.count_cons]
    by_cases e : a = k
    · subst e
      by_cases hlt : m a < stride_count (size * size) a W
      · rw [ih _ a hk (by simp [progress_step, hk, hlt]; omega)]
        simp [progress_step, hk, hlt]
        omega
      · rw [ih _ a hk (by simp [progress_step, hlt]; omega)]
        simp [progress_step, hlt]
        omega
    · have e2 : ¬ k = a := fun h => e h.symm
      rw [ih _ k hk (by simp [progress_step, e2]; omega)]
      simp [progress_step, e2, e]

/-- Whatever the order in which the loop iterations of the workers interleave,
a step that ends returns the statistics and writes the board that `play`
returns and writes with its workers run one after the other. -/
theorem play_interleaved_eq_play (sched : List Nat) (board newboard : Board)
    (size threads fuel : Nat) (hs : 1 ≤ size) (ht : 1 ≤ threads) (hf : size * size < fuel)
    (r : Board × stats_t)
    (hr : play_interleaved sched board newboard size threads = some r) :
    ∃ nb : Board, play fuel board newboard size threads = some (nb, r.2)
      ∧ ∀ i j, r.1 i j = nb i j := by
  have hW := effective_threads_pos size threads hs ht
  obtain ⟨nb, hp, hcell⟩ := play_spec board newboard size threads fuel hs ht hf
  unfold play_interleaved at hr
  simp only [] at hr
  split_ifs at hr with hdone
  obtain ⟨hm, hb⟩ := step_inv_foldl board newboard size _ hs sched _ _
    (step_inv_init board newboard size (effective_threads size threads))
  generalize sched.foldl (progress_step size (effective_threads size threads)) (fun _ => 0) = m
    at hm hb
  have hmk : ∀ k, k < effective_threads size threads →
      m k = stride_count (size * size) k (effective_threads size threads) := by
    intro k hk
    obtain ⟨hle, hloc⟩ := hm k hk
    have h1 := hdone k (List.mem_range.2 hk)
    rw [hloc] at h1
    have h2 : ¬ (k + effective_threads size threads * m k < size * size) :=
      fun h => h1 ((Nat.div_lt_iff_lt_mul hs).2 h)
    rw [lt_stride_count _ _ _ _ hk] at h2
    omega
  have hstats : (List.range (effective_threads size threads)).map
      (fun k => ((sched.foldl (worker_step board size (effective_threads size threads))
        (step_init newboard size)).locals k).thread_stats)
      = (List.range (effective_threads size threads)).map
          (fun k => list_stats board size (worker_list size (effective_threads size threads) k))
      := by
    apply List.map_congr_left
    intro k hk
    rw [(hm k (List.mem_range.1 hk)).2, hmk k (List.mem_range.1 hk)]
    rfl
  cases hr
  refine ⟨nb, ?_, ?_⟩
  · rw [hp, hstats, join_worker_stats board size _ hW]
  · intro i j
    show (sched.foldl (worker_step board size (effective_threads size threads))
      (step_init newboard size)).newboard i j = nb i j
    rw [hb, hcell]
    by_cases h : i < size ∧ j < size
    · have h2 := (covered_iff size _ i j hs hW).2 h
      rw [if_pos h, if_pos]
      obtain ⟨k, hk, x, hx, hxi⟩ := h2
      refine ⟨k, List.mem_range.1 hk, x, ?_, hxi⟩
      rw [hmk k (List.mem_range.1 hk)]
      exact hx
    · rw [if_neg h, if_neg]
      rintro ⟨k, hk, x, hx, hxi⟩
      apply h
      apply (covered_iff size _ i j hs hW).1
      refine ⟨k, List.mem_range.2 hk, x, ?_, hxi⟩
      rw [hmk k hk] at hx
      exact hx

theorem stride_count_le (bound k W : Nat) (hk : k < W) : stride_count bound k W ≤ bound := by
  by_contra h
  have h1 : k + W * bound < bound := (lt_stride_count bound k W bound hk).2 (by omega)
  have h2 : bound ≤ W * bound := Nat.le_mul_of_pos_left _ (by omega)
  omega

/-- An interleaved step ends when the schedule gives every worker at least
`size * size` turns. -/
theorem play_interleaved_returns (sched : List Nat) (board newboard : Board)
    (size threads : Nat) (hs : 1 ≤ size)
    (hfair : ∀ k, k < effective_threads size threads → size * size ≤ sched.count k) :
    ∃ r, play_interleaved sched board newboard size threads = some r := by
  obtain ⟨hm, _⟩ := step_inv_foldl board newboard size _ hs sched _ _
    (step_inv_init board newboard size (effective_threads size threads))
  unfold play_interleaved
  simp only []
  rw [if_pos]
  · exact ⟨_, rfl⟩
  · intro k hk hi
    rw [List.mem_range] at hk
    rw [(hm k hk).2, Nat.div_lt_iff_lt_mul hs, lt_stride_count _ _ _ _ hk,
      progress_foldl size _ sched _ k hk (Nat.zero_le _)] at hi
    have h1 := stride_count_le (size * size) k _ hk
    have h2 := hfair k hk
    simp only [Nat.zero_add] at hi
    omega

/-! ## The corner, the index conversion and the number of iterations -/

theorem adjacent_to_corner (board : Board) :
    adjacent_to board 3 0 0 = board 0 1 + board 1 0 + board 1 1 := by
  rw [adjacent_to_eq_window]
  simp only [window_sum]
  simp
  omega

theorem thread_body_coord (board : Board) (size jump : Nat) (newboard : Board)
    (s : thread_locals) :
    ((thread_body board size jump newboard s).2.i, (thread_body board size jump newboard s).2.j)
      = index_coord size (s.counter + jump) :=
  rfl

theorem coord_index_lt (size i j : Nat) (hi : i < size) (hj : j < size) :
    i * size + j < size * size := by
  calc i * size + j < i * size + size := by omega
    _ = (i + 1) * size := by ring
    _ ≤ size * size := Nat.mul_le_mul_right _ hi

theorem coord_index_div (size i j : Nat) (hj : j < size) : (i * size + j) / size = i := by
  have hs : 0 < size := by omega
  rw [Nat.add_comm, Nat.add_mul_div_right _ _ hs, Nat.div_eq_of_lt hj, Nat.zero_add]

theorem coord_index_mod (size i j : Nat) (hj : j < size) : (i * size + j) % size = j := by
  rw [Nat.add_comm, Nat.add_mul_mod_self_right, Nat.mod_eq_of_lt hj]

theorem stride_count_ceil (bound k W : Nat) (hW : 0 < W) (hk : k < bound) :
    bound - k ≤ W * stride_count bound k W
    ∧ W * (stride_count bound k W - 1) < bound - k := by
  unfold stride_count
  have h1 := Nat.div_add_mod (bound - k + W - 1) W
  have h2 := Nat.mod_lt (bound - k + W - 1) hW
  have h3 : 1 ≤ (bound - k + W - 1) / W := by
    apply (Nat.le_div_iff_mul_le hW).2
    omega
  have h4 : W * ((bound - k + W - 1) / W - 1) = W * ((bound - k + W - 1) / W) - W := by
    rw [Nat.mul_sub, Nat.mul_one]
  have h5 : W ≤ W * ((bound - k + W - 1) / W) := Nat.le_mul_of_pos_right _ (by omega)
  constructor
  · omega
  · rw [h4]; omega

theorem thread_indices_exact (size jump : Nat) (hs : 0 < size) (hj : 0 < jump) :
    ∀ (fuel c : Nat),
      thread_indices size jump fuel (c / size) c
        = if stride_count (size * size) c jump < fuel
          then some (List.range' c (stride_count (size * size) c jump) jump) else none := by
  intro fuel
  induction fuel with
  | zero => intro c; simp [thread_indices]
  | succ n ih =>
    intro c
    unfold thread_indices
    by_cases hc : c / size < size
    · have hlt : c < size * size := (Nat.div_lt_iff_lt_mul hs).1 hc
      simp only [hc, if_true]
      rw [ih (c + jump), stride_count_succ _ _ _ hj hlt]
      by_cases h : stride_count (size * size) (c + jump) jump < n
      · simp [h, List.range']
      · simp [h]
    · have hge : size * size ≤ c := by
        by_contra hlt
        exact hc ((Nat.div_lt_iff_lt_mul hs).2 (by omega))
      simp [hc, stride_count_zero _ _ _ hj hge]

theorem alive_partition (board : Board) (size : Nat) (L : List Nat) :
    idx_count (is_survival board size) size L + idx_count (is_lonely board size) size L
      + idx_count (is_crowded board size) size L
      = idx_count (fun i j => board i j ≠ 0) size L := by
  induction L with
  | nil => simp [idx_count]
  | cons x xs ih =>
    simp only [idx_count, List.countP_cons] at ih ⊢
    have h1 : (if decide (is_survival board size (x / size) (x % size)) = true then 1 else 0)
        + (if decide (is_lonely board size (x / size) (x % size)) = true then 1 else 0)
        + (if decide (is_crowded board size (x / size) (x % size)) = true then 1 else 0)
        = (if decide (board (x / size) (x % size) ≠ 0) = true then 1 else 0) := by
      simp only [decide_eq_true_eq, is_survival, is_lonely, is_crowded]
      by_cases h0 : board (x / size) (x % size) = 0
      · simp [h0]
      · simp only [h0, ne_eq, not_false_eq_true, true_and, if_true]
        split_ifs <;> omega
    omega

theorem next_live_partition (board : Board) (size : Nat) (L : List Nat) :
    idx_count (is_born board size) size L + idx_count (is_survival board size) size L
      = idx_count (fun i j => cell_next board size i j ≠ 0) size L := by
  induction L with
  | nil => simp [idx_count]
  | cons x xs ih =>
    simp only [idx_count, List.countP_cons] at ih ⊢
    have h1 : (if decide (is_born board size (x / size) (x % size)) = true then 1 else 0)
        + (if decide (is_survival board size (x / size) (x % size)) = true then 1 else 0)
        = (if decide (cell_next board size (x / size) (x % size) ≠ 0) = true then 1 else 0) := by
      simp only [decide_eq_true_eq, is_born, is_survival, cell_next]
      by_cases h0 : board (x / size) (x % size) = 0
      · simp only [h0, true_and, ne_eq, not_true_eq_false, false_and, if_false]
        split_ifs <;> simp_all
      · simp only [h0, false_and, ne_eq, not_false_eq_true, true_and, if_false, if_true]
        split_ifs <;> first | omega | simp_all
    omega

/-! ## The loop of `main` -/

theorem play_total (board newboard : Board) (size threads fuel : Nat)
    (ht : 1 ≤ threads) (hf : size * size < fuel) :
    ∃ (nb : Board) (st : stats_t), play fuel board newboard size threads = some (nb, st) := by
  by_cases hs : size = 0
  · subst hs
    have h0 : effective_threads 0 threads = 0 := by
      unfold effective_threads
      split_ifs <;> omega
    exact ⟨newboard, stats_zero, by simp [play, play_args, h0, run_threads]⟩
  · obtain ⟨nb, hp, _⟩ := play_spec board newboard size threads fuel (by omega) ht hf
    exact ⟨nb, _, hp⟩

theorem main_loop_succ (fuel size threads steps : Nat) (prev next nb : Board)
    (total st : stats_t) (hp : play fuel prev next size threads = some (nb, st)) :
    main_loop fuel size threads (steps + 1) prev next total
      = (main_loop fuel size threads steps nb prev (stats_add total st)).map
          (fun r => (r.1, r.2.1, r.2.2.1, st :: r.2.2.2)) := by
  simp only [main_loop, hp]
  cases main_loop fuel size threads steps nb prev (stats_add total st) with
  | none => rfl
  | some r => rfl

theorem main_loop_returns (fuel size threads : Nat) (ht : 1 ≤ threads)
    (hf : size * size < fuel) :
    ∀ (n : Nat) (prev next : Board) (total : stats_t),
      ∃ r, main_loop fuel size threads n prev next total = some r := by
  intro n
  induction n with
  | zero => intro prev next total; exact ⟨_, rfl⟩
  | succ n ih =>
    intro prev next total
    obtain ⟨nb, st, hp⟩ := play_total prev next size threads fuel ht hf
    obtain ⟨r, hr⟩ := ih nb prev (stats_add total st)
    exact ⟨_, by rw [main_loop_succ _ _ _ _ _ _ _ _ _ hp, hr]; rfl⟩

theorem main_loop_total (fuel size threads : Nat) :
    ∀ (n : Nat) (prev next : Board) (total : stats_t)
      (r : Board × Board × stats_t × List stats_t),
      main_loop fuel size threads n prev next total = some r →
      r.2.2.2.length = n ∧ r.2.2.1 = r.2.2.2.foldl stats_add total := by
  intro n
  induction n with
  | zero =>
    intro prev next total r h
    simp only [main_loop, Option.some.injEq] at h
    subst h
    exact ⟨rfl, rfl⟩
  | succ n ih =>
    intro prev next total r h
    cases hp : play fuel prev next size threads with
    | none => simp [main_loop, hp] at h
    | some x =>
      obtain ⟨nb, st⟩ := x
      rw [main_loop_succ _ _ _ _ _ _ _ _ _ hp] at h
      cases hm : main_loop fuel size threads n nb prev (stats_add total st) with
      | none => simp [hm] at h
      | some r2 =>
        rw [hm] at h
        simp only [Option.map_some', Option.some.injEq] at h
        subst h
        obtain ⟨h1, h2⟩ := ih _ _ _ _ hm
        exact ⟨by simp [h1], by simp [h2]⟩

theorem main_loop_split (fuel size threads : Nat) :
    ∀ (a b : Nat) (prev next : Board) (total : stats_t),
      main_loop fuel size threads (a + b) prev next total
        = (main_loop fuel size threads a prev next total).bind
            (fun r => (main_loop fuel size threads b r.1 r.2.1 r.2.2.1).map
              (fun r2 => (r2.1, r2.2.1, r2.2.2.1, r.2.2.2 ++ r2.2.2.2))) := by
  intro a
  induction a with
  | zero =>
    intro b prev next total
    simp only [Nat.zero_add, main_loop, Option.some_bind, List.nil_append]
    cases main_loop fuel size threads b prev next total with
    | none => rfl
    | some r => rfl
  | succ a ih =>
    intro b prev next total
    have e : a + 1 + b = (a + b) + 1 := by omega
    rw [e]
    cases hp : play fuel prev next size threads with
    | none => simp [main_loop, hp]
    | some x =>
      obtain ⟨nb, st⟩ := x
      rw [main_loop_succ _ _ _ _ _ _ _ _ _ hp, main_loop_succ _ _ _ _ _ _ _ _ _ hp, ih]
      cases main_loop fuel size threads a nb prev (stats_add total st) with
      | none => rfl
      | some r =>
        simp only [Option.some_bind, Option.map_some', Option.map_map]
        cases main_loop fuel size threads b r.1 r.2.1 r.2.2.1 with
        | none => rfl
        | some r2 => simp

theorem main_loop_step_stats (fuel size threads : Nat) (ht : 1 ≤ threads)
    (hf : size * size < fuel) (n : Nat) (prev next : Board) (total : stats_t)
    (r : Board × Board × stats_t × List stats_t)
    (h : main_loop fuel size threads n prev next total = some r) (k : Nat) (hk : k < n) :
    ∃ (rk : Board × Board × stats_t × List stats_t) (nb : Board) (st : stats_t),
      main_loop fuel size threads k prev next total = some rk
      ∧ play fuel rk.1 rk.2.1 size threads = some (nb, st)
      ∧ r.2.2.2[k]? = some st := by
  obtain ⟨rk, hrk⟩ := main_loop_returns fuel size threads ht hf k prev next total
  obtain ⟨nb, st, hp⟩ := play_total rk.1 rk.2.1 size threads fuel ht hf
  obtain ⟨r2, hr2⟩ := main_loop_returns fuel size threads ht hf (n - k - 1) nb rk.1
    (stats_add rk.2.2.1 st)
  have e : n = k + ((n - k - 1) + 1) := by omega
  rw [e, main_loop_split, hrk, Option.some_bind, main_loop_succ _ _ _ _ _ _ _ _ _ hp, hr2] at h
  simp only [Option.map_some', Option.some.injEq] at h
  subst h
  refine ⟨rk, nb, st, hrk, hp, ?_⟩
  have hlen := (main_loop_total fuel size threads k prev next total rk hrk).1
  simp only []
  rw [List.getElem?_append_right (by omega), hlen, Nat.sub_self]
  simp

theorem main_loop_invariant (size threads fuel : Nat)
    (hs : 1 ≤ size) (ht : 1 ≤ threads) (hf : size * size < fuel)
    (P : Nat → Board → Prop)
    (hstep : ∀ k b nb, P k b →
      (∀ i j, i < size → j < size → nb i j = cell_next b size i j) → P (k + 1) nb) :
    ∀ (n k : Nat) (prev next : Board) (total : stats_t), P k prev →
      ∃ r, main_loop fuel size threads n prev next total = some r ∧ P (k + n) r.1 := by
  intro n
  induction n with
  | zero => intro k prev next total h; exact ⟨_, rfl, h⟩
  | succ n ih =>
    intro k prev next total h
    obtain ⟨nb, hp, hcell⟩ := play_spec prev next size threads fuel hs ht hf
    have h1 : P (k + 1) nb :=
      hstep k prev nb h (fun i j hi hj => by rw [hcell, if_pos ⟨hi, hj⟩])
    obtain ⟨r, hr, hP⟩ := ih (k + 1) nb prev (stats_add total (total_stats prev size)) h1
    refine ⟨_, by rw [main_loop_succ _ _ _ _ _ _ _ _ _ hp, hr]; rfl, ?_⟩
    have e : k + (n + 1) = k + 1 + n := by omega
    rw [e]
    exact hP

/-! ## Binary cells and `read_file` -/

theorem cell_next_binary (board : Board) (size i j : Nat)
    (h : board i j = 0 ∨ board i j = 1) :
    cell_next board size i j = 0 ∨ cell_next board size i j = 1 := by
  rw [cell_next_eq_transition _ _ _ _ h]
  unfold transition
  split_ifs <;> simp

theorem read_row (v : Nat → cell_t) (j : Nat) :
    ∀ (n : Nat) (b : Board),
      (List.range n).foldl (fun b i => b.set i j (v i)) b
        = fun x y => if x < n ∧ y = j then v x else b x y := by
  intro n
  induction n with
  | zero => intro b; funext x y; simp
  | succ n ih =>
    intro b
    rw [List.range_succ, List.foldl_append, ih]
    funext x y
    simp only [List.foldl_cons, List.foldl_nil, Board.set]
    by_cases h1 : x = n ∧ y = j
    · obtain ⟨rfl, rfl⟩ := h1
      simp
    · by_cases h2 : x < n ∧ y = j
      · have : x < n + 1 ∧ y = j := ⟨by omega, h2.2⟩
        have h3 : x ≠ n := by omega
        simp [h2, this, h3]
      · have : ¬ (x < n + 1 ∧ y = j) := fun h => by
          rcases Nat.lt_succ_iff_lt_or_eq.1 h.1 with h3 | h3
          · exact h2 ⟨h3, h.2⟩
          · exact h1 ⟨h3, h.2⟩
        simp [h1, h2, this]

theorem read_file_eq (s : Nat → Nat → Char) (board : Board) (size : Nat) :
    read_file s board size
      = fun i j => if i < size ∧ j < size then (if s j i = 'x' then 1 else 0)
          else board i j := by
  unfold read_file
  have h : ∀ (m : Nat) (b : Board),
      (List.range m).foldl
        (fun b j => (List.range size).foldl
          (fun b i => b.set i j (if s j i = 'x' then 1 else 0)) b) b
        = fun x y => if x < size ∧ y < m then (if s y x = 'x' then 1 else 0) else b x y := by
    intro m
    induction m with
    | zero => intro b; funext x y; simp
    | succ m ih =>
      intro b
      rw [List.range_succ, List.foldl_append, ih]
      simp only [List.foldl_cons, List.foldl_nil, read_row]
      funext x y
      by_cases h1 : x < size ∧ y = m
      · obtain ⟨hx, rfl⟩ := h1
        simp [hx]
      · by_cases h2 : x < size ∧ y < m
        · have : x < size ∧ y < m + 1 := ⟨h2.1, by omega⟩
          have h3 : y ≠ m := by omega
          simp [h2, this, h3]
        · have : ¬ (x < size ∧ y < m + 1) := fun h => by
            rcases Nat.lt_succ_iff_lt_or_eq.1 h.2 with h3 | h3
            · exact h2 ⟨h.1, h3⟩
            · exact h1 ⟨h.1, h3⟩
          simp [h1, h2, this]
  exact h size board

theorem read_file_binary (s : Nat → Nat → Char) (board : Board) (size i j : Nat)
    (hi : i < size) (hj : j < size) :
    read_file s board size i j = 0 ∨ read_file s board size i j = 1 := by
  rw [read_file_eq]
  simp only [hi, hj, and_self, if_true]
  split_ifs <;> simp

/-! ## The glider -/

theorem glider_table : ∀ k, k < 4 → ∀ i, i < 6 → ∀ j, j < 6 →
    cell_next (pattern (glider_gen k)) 6 i j = pattern (glider_gen (k + 1)) i j := by
  decide

theorem adjacent_to_congr (b1 b2 : Board) (size i j : Nat) (hi : i < size) (hj : j < size)
    (h : ∀ k l, k < size → l < size → b1 k l = b2 k l) :
    adjacent_to b1 size i j = adjacent_to b2 size i j := by
  rw [adjacent_to_eq_window, adjacent_to_eq_window]
  have c : ∀ k l, k < size → l < size → @Eq Nat (b1 k l) (b2 k l) := h
  simp only [window_sum]
  split_ifs
  all_goals
    have a1 := c (i - 1) (j - 1) (by omega) (by omega)
    have a2 := c (i - 1) j (by omega) (by omega)
    have a4 := c i (j - 1) (by omega) (by omega)
    have a5 := c i j (by omega) (by omega)
    try have a3 := c (i - 1) (j + 1) (by omega) (by omega)
    try have a6 := c i (j + 1) (by omega) (by omega)
    try have a7 := c (i + 1) (j - 1) (by omega) (by omega)
    try have a8 := c (i + 1) j (by omega) (by omega)
    try have a9 := c (i + 1) (j + 1) (by omega) (by omega)
    omega

theorem cell_next_congr (b1 b2 : Board) (size i j : Nat) (hi : i < size) (hj : j < size)
    (h : ∀ k l, k < size → l < size → b1 k l = b2 k l) :
    cell_next b1 size i j = cell_next b2 size i j := by
  unfold cell_next
  rw [adjacent_to_congr b1 b2 size i j hi hj h, h i j hi hj]

theorem adjacent_to_size_irrelevant (b : Board) (n s1 s2 i j : Nat)
    (h1 : n < s1) (h2 : n < s2) (hz : ∀ k l, n ≤ k ∨ n ≤ l → b k l = 0) :
    adjacent_to b s1 i j = adjacent_to b s2 i j := by
  rw [adjacent_to_eq_window, adjacent_to_eq_window]
  have c : ∀ k l, n ≤ k ∨ n ≤ l → @Eq Nat (b k l) 0 := hz
  simp only [window_sum]
  split_ifs
  all_goals
    try have a1 := c (i + 1) (j - 1) (Or.inl (by omega))
    try have a2 := c (i + 1) j (Or.inl (by omega))
    try have a3 := c (i + 1) (j + 1) (Or.inl (by omega))
    try have a4 := c (i - 1) (j + 1) (Or.inr (by omega))
    try have a5 := c i (j + 1) (Or.inr (by omega))
    try have a6 := c (i + 1) (j + 1) (Or.inr (by omega))
    omega

theorem adjacent_to_far (b : Board) (n size i j : Nat) (hfar : n < i ∨ n < j)
    (hz : ∀ k l, n ≤ k ∨ n ≤ l → b k l = 0) :
    adjacent_to b size i j = 0 := by
  rw [adjacent_to_eq_window]
  have c : ∀ k l, n ≤ k ∨ n ≤ l → @Eq Nat (b k l) 0 := hz
  have hor : ∀ k l, i ≤ k + 1 → j ≤ l + 1 → @Eq Nat (b k l) 0 := by
    intro k l hk hl
    apply c
    omega
  have a1 := hor (i - 1) (j - 1) (by omega) (by omega)
  have a2 := hor (i - 1) j (by omega) (by omega)
  have a3 := hor (i - 1) (j + 1) (by omega) (by omega)
  have a4 := hor i (j - 1) (by omega) (by omega)
  have a5 := hor i j (by omega) (by omega)
  have a6 := hor i (j + 1) (by omega) (by omega)
  have a7 := hor (i + 1) (j - 1) (by omega) (by omega)
  have a8 := hor (i + 1) j (by omega) (by omega)
  have a9 := hor (i + 1) (j + 1) (by omega) (by omega)
  simp only [window_sum]
  split_ifs <;> omega

theorem glider_support : ∀ k, k < 5 → ∀ i j, 5 ≤ i ∨ 5 ≤ j → pattern (glider_gen k) i j = 0 := by
  intro k hk i j h
  unfold pattern
  rw [if_neg]
  intro hm
  interval_cases k <;> simp [glider_gen] at hm <;> omega

theorem glider_step (size k : Nat) (hs : 6 ≤ size) (hk : k < 4) (b : Board)
    (hb : ∀ i j, i < size → j < size → b i j = pattern (glider_gen k) i j)
    (i j : Nat) (hi : i < size) (hj : j < size) :
    cell_next b size i j = pattern (glider_gen (k + 1)) i j := by
  rw [cell_next_congr b _ size i j hi hj hb]
  have hsup := glider_support k (by omega)
  have hsize : cell_next (pattern (glider_gen k)) size i j
      = cell_next (pattern (glider_gen k)) 6 i j := by
    unfold cell_next
    rw [adjacent_to_size_irrelevant _ 5 size 6 i j (by omega) (by omega) hsup]
  rw [hsize]
  by_cases hin : i < 6 ∧ j < 6
  · exact glider_table k hk i hin.1 j hin.2
  · have hfar : 5 < i ∨ 5 < j := by omega
    have h0 : pattern (glider_gen k) i j = 0 := hsup i j (by omega)
    have h1 : pattern (glider_gen (k + 1)) i j = 0 :=
      glider_support (k + 1) (by omega) i j (by omega)
    rw [h1]
    simp [cell_next, h0, adjacent_to_far _ 5 6 i j hfar hsup]

/-! ## Boards in memory -/

theorem put_put (m : Memory) (p : Nat) (b1 b2 : Board) :
    (m.put p b1).put p b2 = m.put p b2 := by
  funext q
  unfold Memory.put
  split_ifs <;> rfl

theorem thread_loop_mem_eq (board newboard size jump : Nat) (hne : board ≠ newboard) :
    ∀ (fuel : Nat) (m : Memory) (s : thread_locals),
      thread_loop_mem board newboard size jump fuel m s
        = (thread_loop (m board) size jump fuel (m newboard) s).map
            (fun r => (m.put newboard r.1, r.2)) := by
  intro fuel
  induction fuel with
  | zero => intro m s; rfl
  | succ n ih =>
    intro m s
    unfold thread_loop_mem thread_loop
    by_cases h : s.i < size
    · simp only [h, if_true, thread_body_mem, thread_cell_mem, thread_body]
      rw [ih]
      simp only [if_neg hne, if_true]
      congr 1
      funext r
      have e3 : (fun q => if q = newboard
          then (thread_cell (m board) size s.i s.j (m newboard) s.thread_stats).1
          else m q)
          = m.put newboard (thread_cell (m board) size s.i s.j (m newboard) s.thread_stats).1 :=
        rfl
      rw [e3, put_put]
    · simp only [h, if_false, Option.map_some']
      congr 2
      funext q
      unfold Memory.put
      split_ifs with hq
      · rw [hq]
      · rfl

theorem run_threads_mem_eq (fuel board newboard : Nat) (hne : board ≠ newboard) :
    ∀ (ps : List thread_args_t) (m : Memory),
      run_threads_mem fuel board newboard ps m
        = (run_threads fuel (m board) ps (m newboard)).map
            (fun r => (m.put newboard r.1, r.2)) := by
  intro ps
  induction ps with
  | nil =>
    intro m
    simp only [run_threads_mem, run_threads, Option.map_some']
    congr 2
    funext q
    unfold Memory.put
    split_ifs with hq
    · rw [hq]
    · rfl
  | cons p ps ih =>
    intro m
    unfold run_threads_mem run_threads thread_mem thread
    rw [thread_loop_mem_eq board newboard p.size p.jump hne]
    cases thread_loop (m board) p.size p.jump fuel (m newboard)
      { i := p.start / p.size, j := p.start % p.size, counter := p.start,
        thread_stats := stats_zero } with
    | none => rfl
    | some r =>
      obtain ⟨nb, st⟩ := r
      simp only [Option.map_some']
      rw [ih]
      have e1 : (m.put newboard nb) board = m board := by simp [Memory.put, hne]
      have e2 : (m.put newboard nb) newboard = nb := by simp [Memory.put]
      rw [e1, e2]
      cases run_threads fuel (m board) ps nb with
      | none => rfl
      | some r2 =>
        obtain ⟨nb2, sts⟩ := r2
        simp only [Option.map_some', put_put]

theorem play_mem_eq (fuel : Nat) (m : Memory) (board newboard size threads : Nat)
    (hne : board ≠ newboard) :
    play_mem fuel m board newboard size threads
      = (play fuel (m board) (m newboard) size threads).map
          (fun r => (m.put newboard r.1, r.2)) := by
  unfold play_mem play
  rw [run_threads_mem_eq fuel board newboard hne]
  cases run_threads fuel (m board) (play_args size threads) (m newboard) with
  | none => rfl
  | some r => rfl

/-! ## The checks of `main` -/

theorem main_play_calls_accepted (threads size steps : Int) (ht : 1 ≤ threads) :
    main_play_calls 3 true threads size steps = List.replicate steps.toNat (size, threads) := by
  unfold main_play_calls
  have h4 : ¬ threads < 1 := by omega
  simp [h4]

/-! ## The claims -/

/-- C1: for `size ≥ 1`, a worker count `≥ 1`, a current grid with cells in
`{0, 1}` and any prior content of `newboard`, `play` returns (the worker loops
end within `size * size + 1` tests of their condition), and every cell
`newboard[i][j]` of the grid then holds the transition rule applied to
`board[i][j]` and `adjacent_to(board, size, i, j)`, whatever it held before. -/
theorem play_writes_transition (board newboard : Board) (size threads fuel : Nat)
    (hs : 1 ≤ size) (ht : 1 ≤ threads) (hf : size * size < fuel)
    (hb : ∀ i j, i < size → j < size → board i j = 0 ∨ board i j = 1) :
    ∃ (nb : Board) (st : stats_t), play fuel board newboard size threads = some (nb, st)
      ∧ ∀ i j, i < size → j < size →
          nb i j = transition (board i j) (adjacent_to board size i j) := by
  obtain ⟨nb, hp, hcell⟩ := play_spec board newboard size threads fuel hs ht hf
  refine ⟨nb, _, hp, ?_⟩
  intro i j hi hj
  rw [hcell, if_pos ⟨hi, hj⟩, cell_next_eq_transition _ _ _ _ (hb i j hi hj)]

/-- C1 at the blinker of size 3 with two workers. -/
theorem play_writes_transition_witness :
    (1 ≤ 3 ∧ 1 ≤ 2 ∧ 3 * 3 < 10) ∧
    ∃ (nb : Board) (st : stats_t), play 10 blinker dead_board 3 2 = some (nb, st)
      ∧ ∀ i j, i < 3 → j < 3 → nb i j = transition (blinker i j) (adjacent_to blinker 3 i j) :=
  ⟨by decide, play_writes_transition blinker dead_board 3 2 10 (by decide) (by decide)
    (by decide) blinker_binary⟩

/-- C2: for `size ≥ 1`, any grid and any two worker counts `w1, w2 ≥ 1`, `play`
on the same current grid returns the same statistics and writes the same next
grid with `w1` workers as with `w2` workers. -/
theorem play_worker_count_independent (board nb1 nb2 : Board) (size w1 w2 f1 f2 : Nat)
    (hs : 1 ≤ size) (h1 : 1 ≤ w1) (h2 : 1 ≤ w2)
    (hf1 : size * size < f1) (hf2 : size * size < f2) :
    ∃ (r1 r2 : Board) (st : stats_t),
      play f1 board nb1 size w1 = some (r1, st) ∧ play f2 board nb2 size w2 = some (r2, st)
      ∧ ∀ i j, i < size → j < size → r1 i j = r2 i j := by
  obtain ⟨r1, hp1, hc1⟩ := play_spec board nb1 size w1 f1 hs h1 hf1
  obtain ⟨r2, hp2, hc2⟩ := play_spec board nb2 size w2 f2 hs h2 hf2
  refine ⟨r1, r2, _, hp1, hp2, ?_⟩
  intro i j hi hj
  rw [hc1, hc2, if_pos ⟨hi, hj⟩, if_pos ⟨hi, hj⟩]

/-- C2 at the blinker of size 3 with one worker and with `3 * 3 + 10` workers. -/
theorem play_worker_count_independent_witness :
    (1 ≤ 3 ∧ 1 ≤ 1 ∧ 1 ≤ 3 * 3 + 10 ∧ 3 * 3 < 10) ∧
    ∃ (r1 r2 : Board) (st : stats_t),
      play 10 blinker dead_board 3 1 = some (r1, st)
      ∧ play 10 blinker dead_board 3 (3 * 3 + 10) = some (r2, st)
      ∧ ∀ i j, i < 3 → j < 3 → r1 i j = r2 i j :=
  ⟨by decide, play_worker_count_independent blinker dead_board dead_board 3 1 (3 * 3 + 10)
    10 10 (by decide) (by decide) (by decide) (by decide) (by decide)⟩

/-- C3: for `size ≥ 1` and a requested worker count `≥ 1`, the loop of every
worker that `play` starts ends and visits no index twice; an index is visited
by some worker exactly when it lies in `[0, size * size)`; and no index is
visited by two different workers. -/
theorem worker_indices_partition (size threads fuel : Nat)
    (hs : 1 ≤ size) (ht : 1 ≤ threads) (hf : size * size < fuel) :
    (∀ a ∈ play_args size threads, ∃ l, worker_indices fuel a = some l ∧ l.Nodup)
    ∧ (∀ x, x < size * size ↔
        ∃ a ∈ play_args size threads, ∃ l, worker_indices fuel a = some l ∧ x ∈ l)
    ∧ (∀ a ∈ play_args size threads, ∀ b ∈ play_args size threads, ∀ la lb,
        worker_indices fuel a = some la → worker_indices fuel b = some lb →
        ∀ x, x ∈ la → x ∈ lb → a = b) := by
  have hW := effective_threads_pos size threads hs ht
  refine ⟨?_, ?_, ?_⟩
  · intro a ha
    obtain ⟨k, _, rfl⟩ := (mem_play_args size threads a).1 ha
    exact ⟨_, worker_indices_eq size _ k fuel hs hW hf, List.nodup_range' _ _ _ hW⟩
  · intro x
    constructor
    · intro hx
      refine ⟨_, (mem_play_args size threads _).2 ⟨x % effective_threads size threads,
        Nat.mod_lt _ hW, rfl⟩, _, worker_indices_eq size _ _ fuel hs hW hf, ?_⟩
      rw [worker_list, mem_stride _ _ _ _ (Nat.mod_lt _ hW)]
      exact ⟨hx, rfl⟩
    · rintro ⟨a, ha, l, hl, hx⟩
      obtain ⟨k, hk, rfl⟩ := (mem_play_args size threads a).1 ha
      rw [worker_indices_eq size _ k fuel hs hW hf] at hl
      cases hl
      rw [worker_list, mem_stride _ _ _ _ hk] at hx
      exact hx.1
  · intro a ha b hb la lb hla hlb x hxa hxb
    obtain ⟨k, hk, rfl⟩ := (mem_play_args size threads a).1 ha
    obtain ⟨m, hm, rfl⟩ := (mem_play_args size threads b).1 hb
    rw [worker_indices_eq size _ k fuel hs hW hf] at hla
    rw [worker_indices_eq size _ m fuel hs hW hf] at hlb
    cases hla
    cases hlb
    rw [worker_list, mem_stride _ _ _ _ hk] at hxa
    rw [worker_list, mem_stride _ _ _ _ hm] at hxb
    have : k = m := by rw [← hxa.2, ← hxb.2]
    rw [this]

/-- C3 at size 3 with two workers. -/
theorem worker_indices_partition_witness :
    (1 ≤ 3 ∧ 1 ≤ 2 ∧ 3 * 3 < 10) ∧
    ((∀ a ∈ play_args 3 2, ∃ l, worker_indices 10 a = some l ∧ l.Nodup)
    ∧ (∀ x, x < 3 * 3 ↔ ∃ a ∈ play_args 3 2, ∃ l, worker_indices 10 a = some l ∧ x ∈ l)
    ∧ (∀ a ∈ play_args 3 2, ∀ b ∈ play_args 3 2, ∀ la lb,
        worker_indices 10 a = some la → worker_indices 10 b = some lb →
        ∀ x, x ∈ la → x ∈ lb → a = b)) :=
  ⟨by decide, worker_indices_partition 3 2 10 (by decide) (by decide) (by decide)⟩

/-- C4: `play` starts exactly `min(requested, size * size)` workers, and the
`k`-th of them receives `start = k` and `jump = min(requested, size * size)`. -/
theorem play_args_spec (size threads : Nat) :
    (play_args size threads).length = min threads (size * size)
    ∧ ∀ k, k < min threads (size * size) →
        (play_args size threads)[k]?
          = some { size := size, start := k, jump := min threads (size * size) } := by
  unfold play_args
  simp only [effective_threads_eq_min, List.length_map, List.length_range, true_and]
  intro k hk
  simp [List.getElem?_map, List.getElem?_range hk]

/-- C5: for `size ≥ 1`, an in-bounds coordinate `(i, j)` and a grid with cells
in `{0, 1}`, `adjacent_to(board, size, i, j)` is the number of live cells
`(k, l)` of the grid with `|k - i| ≤ 1`, `|l - j| ≤ 1` and `(k, l) ≠ (i, j)`,
and lies in `[0, 8]`. -/
theorem adjacent_to_counts_live_neighbours (board : Board) (size i j : Nat)
    (hi : i < size) (hj : j < size)
    (hb : ∀ k l, k < size → l < size → board k l = 0 ∨ board k l = 1) :
    adjacent_to board size i j = live_neighbours board size i j
    ∧ 0 ≤ adjacent_to board size i j ∧ adjacent_to board size i j ≤ 8 :=
  ⟨adjacent_to_eq_live board size i j hi hj hb, Nat.zero_le _,
    adjacent_to_le_eight board size i j hi hj hb⟩

/-- C5 at the centre of the blinker. -/
theorem adjacent_to_counts_live_neighbours_witness :
    (1 < 3 ∧ 1 < 3) ∧
    (adjacent_to blinker 3 1 1 = live_neighbours blinker 3 1 1
      ∧ 0 ≤ adjacent_to blinker 3 1 1 ∧ adjacent_to blinker 3 1 1 ≤ 8) :=
  ⟨by decide, adjacent_to_counts_live_neighbours blinker 3 1 1 (by decide) (by decide)
    blinker_binary⟩

/-- C6: for `size ≥ 1` (with `size * size` below `2 ^ 32`, as for every `int`
square), a worker count `≥ 1` and a grid with cells in `{0, 1}`, the statistics
returned by `play` are in each field the sum of the workers' records, and
`borns` is the number of dead cells with exactly 3 live neighbours, `survivals`
the number of live cells with 2 or 3, `loneliness` the number of live cells
with fewer than 2, `overcrowding` the number of live cells with more than 3. -/
theorem play_stats_category_counts (board newboard : Board) (size threads fuel : Nat)
    (hs : 1 ≤ size) (ht : 1 ≤ threads) (hf : size * size < fuel)
    (hfit : size * size < UINT_MOD)
    (hb : ∀ i j, i < size → j < size → board i j = 0 ∨ board i j = 1) :
    ∃ (nb : Board) (sts : List stats_t) (st : stats_t),
      run_threads fuel board (play_args size threads) newboard = some (nb, sts)
      ∧ play fuel board newboard size threads = some (nb, st)
      ∧ st.borns = (sts.map (fun s => s.borns)).sum
      ∧ st.survivals = (sts.map (fun s => s.survivals)).sum
      ∧ st.loneliness = (sts.map (fun s => s.loneliness)).sum
      ∧ st.overcrowding = (sts.map (fun s => s.overcrowding)).sum
      ∧ st.borns = cell_count size
          (fun i j => board i j = 0 ∧ live_neighbours board size i j = 3)
      ∧ st.survivals = cell_count size
          (fun i j => board i j = 1
            ∧ (live_neighbours board size i j = 2 ∨ live_neighbours board size i j = 3))
      ∧ st.loneliness = cell_count size
          (fun i j => board i j = 1 ∧ live_neighbours board size i j < 2)
      ∧ st.overcrowding = cell_count size
          (fun i j => board i j = 1 ∧ live_neighbours board size i j > 3) := by
  have hW := effective_threads_pos size threads hs ht
  obtain ⟨nb, hrun, _⟩ := run_threads_eq board size (effective_threads size threads) fuel
    hs hW hf (List.range (effective_threads size threads)) newboard
  have hplay : play fuel board newboard size threads = some (nb, total_stats board size) := by
    unfold play play_args
    simp only [hrun, join_worker_stats board size _ hW]
  obtain ⟨w1, w2, w3, w4⟩ := worker_stats_sum board size _ hs hW hfit
  have hne : ∀ i j, i < size → j < size → (board i j ≠ 0 ↔ board i j = 1) := by
    intro i j hi hj
    rcases hb i j hi hj with h | h <;> simp [h]
  refine ⟨nb, _, _, hrun, hplay, ?_, ?_, ?_, ?_, ?_, ?_, ?_, ?_⟩
  · rw [w1, total_stats_exact board size hs hfit]
  · rw [w2, total_stats_exact board size hs hfit]
  · rw [w3, total_stats_exact board size hs hfit]
  · rw [w4, total_stats_exact board size hs hfit]
  · rw [total_stats_exact board size hs hfit]
    apply cell_count_congr
    intro i j hi hj
    simp only [is_born, adjacent_to_eq_live board size i j hi hj hb]
  · rw [total_stats_exact board size hs hfit]
    apply cell_count_congr
    intro i j hi hj
    simp only [is_survival, adjacent_to_eq_live board size i j hi hj hb, hne i j hi hj]
  · rw [total_stats_exact board size hs hfit]
    apply cell_count_congr
    intro i j hi hj
    simp only [is_lonely, adjacent_to_eq_live board size i j hi hj hb, hne i j hi hj]
  · rw [total_stats_exact board size hs hfit]
    apply cell_count_congr
    intro i j hi hj
    simp only [is_crowded, adjacent_to_eq_live board size i j hi hj hb, hne i j hi hj]

/-- C6 at the blinker of size 3 with two workers. -/
theorem play_stats_category_counts_witness :
    (1 ≤ 3 ∧ 1 ≤ 2 ∧ 3 * 3 < 10 ∧ 3 * 3 < UINT_MOD) ∧
    ∃ (nb : Board) (sts : List stats_t) (st : stats_t),
      run_threads 10 blinker (play_args 3 2) dead_board = some (nb, sts)
      ∧ play 10 blinker dead_board 3 2 = some (nb, st)
      ∧ st.borns = (sts.map (fun s => s.borns)).sum
      ∧ st.survivals = (sts.map (fun s => s.survivals)).sum
      ∧ st.loneliness = (sts.map (fun s => s.loneliness)).sum
      ∧ st.overcrowding = (sts.map (fun s => s.overcrowding)).sum
      ∧ st.borns = cell_count 3
          (fun i j => blinker i j = 0 ∧ live_neighbours blinker 3 i j = 3)
      ∧ st.survivals = cell_count 3
          (fun i j => blinker i j = 1
            ∧ (live_neighbours blinker 3 i j = 2 ∨ live_neighbours blinker 3 i j = 3))
      ∧ st.loneliness = cell_count 3
          (fun i j => blinker i j = 1 ∧ live_neighbours blinker 3 i j < 2)
      ∧ st.overcrowding = cell_count 3
          (fun i j => blinker i j = 1 ∧ live_neighbours blinker 3 i j > 3) :=
  ⟨by decide, play_stats_category_counts blinker dead_board 3 2 10 (by decide) (by decide)
    (by decide) (by decide) blinker_binary⟩

/-- C7, as the code has it: for `size ≥ 1` (with `size * size` below `2 ^ 32`),
a worker count `≥ 1` and any grid, the four counters returned by `play` add up
to `size * size` minus the number of dead cells whose neighbour count is not 3,
the cells that `thread` leaves unchanged without counting them; so the sum is
at most `size * size`. -/
theorem play_stats_sum (board newboard : Board) (size threads fuel : Nat)
    (hs : 1 ≤ size) (ht : 1 ≤ threads) (hf : size * size < fuel)
    (hfit : size * size < UINT_MOD) :
    ∃ (nb : Board) (st : stats_t), play fuel board newboard size threads = some (nb, st)
      ∧ st.borns + st.survivals + st.loneliness + st.overcrowding
          + cell_count size (fun i j => board i j = 0 ∧ adjacent_to board size i j ≠ 3)
        = size * size
      ∧ st.borns + st.survivals + st.loneliness + st.overcrowding ≤ size * size := by
  obtain ⟨nb, hp, _⟩ := play_spec board newboard size threads fuel hs ht hf
  have hsum := categories_partition board size (List.range (size * size))
  simp only [idx_count_range _ size hs, List.length_range] at hsum
  have hu : cell_count size (fun i j => board i j = 0 ∧ adjacent_to board size i j ≠ 3)
      = cell_count size (is_unchanged board size) := by
    apply cell_count_congr
    intro i j _ _
    simp only [is_unchanged]
  refine ⟨nb, _, hp, ?_, ?_⟩
  · rw [total_stats_exact board size hs hfit, hu]
    exact hsum
  · rw [total_stats_exact board size hs hfit]
    simp only []
    omega

/-- C7 fails as stated: on the all-dead grid of size 2, with one worker, the
four counters returned by `play` do not add up to `2 * 2` (they are all 0). -/
theorem play_stats_sum_counterexample :
    ∃ (nb : Board) (st : stats_t), play 5 dead_board dead_board 2 1 = some (nb, st)
      ∧ st.borns + st.survivals + st.loneliness + st.overcrowding ≠ 2 * 2 :=
  ⟨_, _, rfl, by decide⟩

/-- C7 as amended, at the blinker of size 3 with two workers. -/
theorem play_stats_sum_witness :
    (1 ≤ 3 ∧ 1 ≤ 2 ∧ 3 * 3 < 10 ∧ 3 * 3 < UINT_MOD) ∧
    ∃ (nb : Board) (st : stats_t), play 10 blinker dead_board 3 2 = some (nb, st)
      ∧ st.borns + st.survivals + st.loneliness + st.overcrowding
          + cell_count 3 (fun i j => blinker i j = 0 ∧ adjacent_to blinker 3 i j ≠ 3)
        = 3 * 3
      ∧ st.borns + st.survivals + st.loneliness + st.overcrowding ≤ 3 * 3 :=
  ⟨by decide, play_stats_sum blinker dead_board 3 2 10 (by decide) (by decide) (by decide)
    (by decide)⟩

/-- C8: for size 3 and every worker count `≥ 1`, one `play` step on the grid
`[[0,1,0],[0,1,0],[0,1,0]]` writes the next grid `[[0,0,0],[1,1,1],[0,0,0]]`. -/
theorem blinker_step_grid (newboard : Board) (threads fuel : Nat)
    (ht : 1 ≤ threads) (hf : 9 < fuel) :
    ∃ (nb : Board) (st : stats_t), play fuel blinker newboard 3 threads = some (nb, st)
      ∧ nb 0 0 = 0 ∧ nb 0 1 = 0 ∧ nb 0 2 = 0
      ∧ nb 1 0 = 1 ∧ nb 1 1 = 1 ∧ nb 1 2 = 1
      ∧ nb 2 0 = 0 ∧ nb 2 1 = 0 ∧ nb 2 2 = 0 := by
  obtain ⟨nb, hp, hcell⟩ := play_spec blinker newboard 3 threads fuel (by decide) ht hf
  have h : ∀ i j, i < 3 → j < 3 → nb i j = cell_next blinker 3 i j :=
    fun i j hi hj => by rw [hcell, if_pos ⟨hi, hj⟩]
  refine ⟨nb, _, hp, ?_⟩
  rw [h 0 0 (by decide) (by decide), h 0 1 (by decide) (by decide),
    h 0 2 (by decide) (by decide), h 1 0 (by decide) (by decide),
    h 1 1 (by decide) (by decide), h 1 2 (by decide) (by decide),
    h 2 0 (by decide) (by decide), h 2 1 (by decide) (by decide),
    h 2 2 (by decide) (by decide)]
  decide

/-- C8 with four workers. -/
theorem blinker_step_grid_witness :
    (1 ≤ 4 ∧ 9 < 10) ∧
    ∃ (nb : Board) (st : stats_t), play 10 blinker dead_board 3 4 = some (nb, st)
      ∧ nb 0 0 = 0 ∧ nb 0 1 = 0 ∧ nb 0 2 = 0
      ∧ nb 1 0 = 1 ∧ nb 1 1 = 1 ∧ nb 1 2 = 1
      ∧ nb 2 0 = 0 ∧ nb 2 1 = 0 ∧ nb 2 2 = 0 :=
  ⟨by decide, blinker_step_grid dead_board 4 10 (by decide) (by decide)⟩

/-- C9, as the code has it: for size 3 and every worker count `≥ 1`, one `play`
step on the grid `[[0,1,0],[0,1,0],[0,1,0]]` returns `borns = 2`,
`survivals = 1`, `loneliness = 2` (the two end cells of the blinker have one
neighbour each) and `overcrowding = 0`. -/
theorem blinker_step_stats (newboard : Board) (threads fuel : Nat)
    (ht : 1 ≤ threads) (hf : 9 < fuel) :
    ∃ (nb : Board) (st : stats_t), play fuel blinker newboard 3 threads = some (nb, st)
      ∧ st.borns = 2 ∧ st.survivals = 1 ∧ st.loneliness = 2 ∧ st.overcrowding = 0 := by
  obtain ⟨nb, hp, _⟩ := play_spec blinker newboard 3 threads fuel (by decide) ht hf
  refine ⟨nb, _, hp, ?_⟩
  decide

/-- C9 fails as stated: on the blinker of size 3, with one worker, `play` does
not return `loneliness = 0`. -/
theorem blinker_step_stats_counterexample :
    ∃ (nb : Board) (st : stats_t), play 10 blinker dead_board 3 1 = some (nb, st)
      ∧ ¬ (st.borns = 2 ∧ st.survivals = 1 ∧ st.loneliness = 0 ∧ st.overcrowding = 0) :=
  ⟨_, _, rfl, by decide⟩

/-- C9 as amended, with four workers. -/
theorem blinker_step_stats_witness :
    (1 ≤ 4 ∧ 9 < 10) ∧
    ∃ (nb : Board) (st : stats_t), play 10 blinker dead_board 3 4 = some (nb, st)
      ∧ st.borns = 2 ∧ st.survivals = 1 ∧ st.loneliness = 2 ∧ st.overcrowding = 0 :=
  ⟨by decide, blinker_step_stats dead_board 4 10 (by decide) (by decide)⟩

/-- C10: for `size ≥ 1`, a worker count `≥ 1` and any number `n` of steps, the
loop of `main` started on an all-dead grid ends, with an all-dead grid, a run
total of zero in the four fields, and `n` step statistics that are all zero. -/
theorem main_loop_dead_grid (size threads fuel : Nat)
    (hs : 1 ≤ size) (ht : 1 ≤ threads) (hf : size * size < fuel) (n : Nat) :
    ∀ (prev next : Board), (∀ i j, i < size → j < size → prev i j = 0) →
    ∃ (p q : Board) (log : List stats_t),
      main_loop fuel size threads n prev next stats_zero = some (p, q, stats_zero, log)
      ∧ (∀ i j, i < size → j < size → p i j = 0)
      ∧ log.length = n ∧ ∀ s ∈ log, s = stats_zero := by
  induction n with
  | zero =>
    intro prev next hd
    exact ⟨prev, next, [], rfl, hd, rfl, by simp⟩
  | succ n ih =>
    intro prev next hd
    obtain ⟨nb, hp, hnb⟩ := play_dead prev next size threads fuel hs ht hf hd
    obtain ⟨p, q, log, hm, hpd, hlen, hlog⟩ := ih nb prev hnb
    have hz : stats_add stats_zero stats_zero = stats_zero := by decide
    refine ⟨p, q, stats_zero :: log, ?_, hpd, by simp [hlen], ?_⟩
    · simp only [main_loop, hp, hz, hm]
    · intro s hsm
      rcases List.mem_cons.1 hsm with h | h
      · exact h
      · exact hlog s h

/-- C10 at size 3, two workers and four steps. -/
theorem main_loop_dead_grid_witness :
    (1 ≤ 3 ∧ 1 ≤ 2 ∧ 3 * 3 < 10) ∧
    ∃ (p q : Board) (log : List stats_t),
      main_loop 10 3 2 4 dead_board dead_board stats_zero = some (p, q, stats_zero, log)
      ∧ (∀ i j, i < 3 → j < 3 → p i j = 0)
      ∧ log.length = 4 ∧ ∀ s ∈ log, s = stats_zero :=
  ⟨by decide, main_loop_dead_grid 3 2 10 (by decide) (by decide) (by decide) 4
    dead_board dead_board (fun _ _ _ _ => rfl)⟩

/-- C11: for every 3x3 grid, `adjacent_to(board, 3, 0, 0)` is
`board[0][1] + board[1][0] + board[1][1]`; it does not change when row 2 and
column 2 are overwritten with any values, and it is 0 when `board[2][2]` is the
only live cell. -/
theorem adjacent_to_corner_clamped :
    (∀ board : Board, adjacent_to board 3 0 0 = board 0 1 + board 1 0 + board 1 1)
    ∧ (∀ board v : Board,
        adjacent_to (fun i j => if i = 2 ∨ j = 2 then v i j else board i j) 3 0 0
          = adjacent_to board 3 0 0)
    ∧ adjacent_to (fun i j => if i = 2 ∧ j = 2 then 1 else 0) 3 0 0 = 0 := by
  refine ⟨adjacent_to_corner, ?_, ?_⟩
  · intro board v
    rw [adjacent_to_corner, adjacent_to_corner]
    simp
  · rw [adjacent_to_corner]
    simp

/-- C12: for `size ≥ 6` and a worker count `≥ 1`, four steps of the loop of
`main` (`play`, then the exchange of the buffers) started on the grid whose only
live cells are `[0][1]`, `[1][2]`, `[2][0]`, `[2][1]`, `[2][2]` end on the grid
whose only live cells are `[1][2]`, `[2][3]`, `[3][1]`, `[3][2]`, `[3][3]`. -/
theorem glider_four_steps (size threads fuel : Nat)
    (hs : 6 ≤ size) (ht : 1 ≤ threads) (hf : size * size < fuel) (prev next : Board)
    (hprev : ∀ i j, i < size → j < size →
      prev i j = pattern [(0, 1), (1, 2), (2, 0), (2, 1), (2, 2)] i j) :
    ∃ (p q : Board) (total : stats_t) (log : List stats_t),
      main_loop fuel size threads 4 prev next stats_zero = some (p, q, total, log)
      ∧ ∀ i j, i < size → j < size →
          p i j = pattern [(1, 2), (2, 3), (3, 1), (3, 2), (3, 3)] i j := by
  obtain ⟨r, hr, hP⟩ := main_loop_invariant size threads fuel (by omega) ht hf
    (fun k b => 4 < k ∨ ∀ i j, i < size → j < size → b i j = pattern (glider_gen k) i j)
    (fun k b nb hb hnb => by
      by_cases hk : k < 4
      · right
        intro i j hi hj
        rcases hb with hb | hb
        · omega
        · rw [hnb i j hi hj]
          exact glider_step size k hs hk b hb i j hi hj
      · left; omega)
    4 0 prev next stats_zero (Or.inr hprev)
  refine ⟨r.1, r.2.1, r.2.2.1, r.2.2.2, hr, ?_⟩
  rcases hP with hP | hP
  · omega
  · exact hP

/-- The glider of C12 on the grid of size 6. -/
theorem glider_four_steps_witness :
    (6 ≤ 6 ∧ 1 ≤ 3 ∧ 6 * 6 < 37) ∧
    ∃ (p q : Board) (total : stats_t) (log : List stats_t),
      main_loop 37 6 3 4 (pattern [(0, 1), (1, 2), (2, 0), (2, 1), (2, 2)]) dead_board
        stats_zero = some (p, q, total, log)
      ∧ ∀ i j, i < 6 → j < 6 →
          p i j = pattern [(1, 2), (2, 3), (3, 1), (3, 2), (3, 3)] i j :=
  ⟨by decide, glider_four_steps 6 3 37 (by decide) (by decide) (by decide) _ dead_board
    (fun _ _ _ _ => rfl)⟩

/-- C13: for every initial grid, worker count `≥ 1` and number of steps `n`,
the loop of `main` ends, and the run total it computes from zero is, in each of
the four fields, the sum modulo `2 ^ 32` of that field over the `n` step
statistics, where the `k`-th of them is what `play` returns on the boards the
loop holds after `k` steps. -/
theorem main_loop_total_is_sum (size threads fuel : Nat) (ht : 1 ≤ threads)
    (hf : size * size < fuel) (n : Nat) (prev next : Board) :
    ∃ (p q : Board) (total : stats_t) (log : List stats_t),
      main_loop fuel size threads n prev next stats_zero = some (p, q, total, log)
      ∧ log.length = n
      ∧ total.borns = (log.map (fun s => s.borns)).sum % UINT_MOD
      ∧ total.survivals = (log.map (fun s => s.survivals)).sum % UINT_MOD
      ∧ total.loneliness = (log.map (fun s => s.loneliness)).sum % UINT_MOD
      ∧ total.overcrowding = (log.map (fun s => s.overcrowding)).sum % UINT_MOD
      ∧ ∀ k, k < n → ∃ (pk qk : Board) (tk : stats_t) (lk : List stats_t) (nb : Board)
          (st : stats_t),
          main_loop fuel size threads k prev next stats_zero = some (pk, qk, tk, lk)
          ∧ play fuel pk qk size threads = some (nb, st) ∧ log[k]? = some st := by
  obtain ⟨r, hr⟩ := main_loop_returns fuel size threads ht hf n prev next stats_zero
  obtain ⟨hlen, htot⟩ := main_loop_total fuel size threads n prev next stats_zero r hr
  rw [foldl_stats_add _ _ stats_ok_zero] at htot
  refine ⟨r.1, r.2.1, r.2.2.1, r.2.2.2, hr, hlen, ?_, ?_, ?_, ?_, ?_⟩
  · rw [htot]; simp [stats_zero]
  · rw [htot]; simp [stats_zero]
  · rw [htot]; simp [stats_zero]
  · rw [htot]; simp [stats_zero]
  · intro k hk
    obtain ⟨rk, nb, st, hrk, hp, hget⟩ :=
      main_loop_step_stats fuel size threads ht hf n prev next stats_zero r hr k hk
    exact ⟨rk.1, rk.2.1, rk.2.2.1, rk.2.2.2, nb, st, hrk, hp, hget⟩

/-- C13 at the blinker of size 3, two workers, three steps. -/
theorem main_loop_total_is_sum_witness :
    (1 ≤ 2 ∧ 3 * 3 < 10) ∧
    ∃ (p q : Board) (total : stats_t) (log : List stats_t),
      main_loop 10 3 2 3 blinker dead_board stats_zero = some (p, q, total, log)
      ∧ log.length = 3
      ∧ total.borns = (log.map (fun s => s.borns)).sum % UINT_MOD
      ∧ total.survivals = (log.map (fun s => s.survivals)).sum % UINT_MOD
      ∧ total.loneliness = (log.map (fun s => s.loneliness)).sum % UINT_MOD
      ∧ total.overcrowding = (log.map (fun s => s.overcrowding)).sum % UINT_MOD
      ∧ ∀ k, k < 3 → ∃ (pk qk : Board) (tk : stats_t) (lk : List stats_t) (nb : Board)
          (st : stats_t),
          main_loop 10 3 2 k blinker dead_board stats_zero = some (pk, qk, tk, lk)
          ∧ play 10 pk qk 3 2 = some (nb, st) ∧ log[k]? = some st :=
  ⟨by decide, main_loop_total_is_sum 3 2 10 (by decide) (by decide) 3 blinker dead_board⟩

/-- C14, as the code has it: a run whose worker count is non-positive is
rejected before any step runs: for every input with `threads <= 0`, `main`
returns without a call of `play`. -/
theorem main_rejects_threads (argc : Int) (fopen_ok : Bool) (threads size steps : Int)
    (h : threads ≤ 0) :
    main_play_calls argc fopen_ok threads size steps = [] := by
  unfold main_play_calls
  have h1 : threads < 1 := by omega
  split_ifs <;> rfl

/-- C14 fails as stated: with `size = 0`, one worker and one step, on an
accepted command line and file, `main` calls `play` (once, with size 0). -/
theorem main_rejects_size_counterexample :
    (0 : Int) ≤ 0 ∧ main_play_calls 3 true 1 0 1 = [(0, 1)]
    ∧ main_play_calls 3 true 1 0 1 ≠ [] := by
  decide

/-- C14 as amended, with `threads = 0`, `size = 3` and four steps. -/
theorem main_rejects_threads_witness :
    (0 : Int) ≤ 0 ∧ main_play_calls 3 true 0 3 4 = [] :=
  ⟨by decide, main_rejects_threads 3 true 0 3 4 (by decide)⟩

/-- C15: for `size ≥ 1`, a worker count `≥ 1` and two distinct buffers, `play`
returns and leaves the current grid as it was: every cell `board[i][j]` has the
same value after the call as before, as has every buffer other than `newboard`;
and the buffer `newboard` and the statistics are those of `play` on the contents
of the two buffers. -/
theorem play_leaves_board (m : Memory) (board newboard size threads fuel : Nat)
    (hne : board ≠ newboard) (hs : 1 ≤ size) (ht : 1 ≤ threads) (hf : size * size < fuel) :
    ∃ (m1 : Memory) (st : stats_t),
      play_mem fuel m board newboard size threads = some (m1, st)
      ∧ (∀ i j, m1 board i j = m board i j)
      ∧ (∀ q, q ≠ newboard → m1 q = m q)
      ∧ play fuel (m board) (m newboard) size threads = some (m1 newboard, st) := by
  obtain ⟨nb, hp, _⟩ := play_spec (m board) (m newboard) size threads fuel hs ht hf
  refine ⟨m.put newboard nb, total_stats (m board) size, ?_, ?_, ?_, ?_⟩
  · rw [play_mem_eq fuel m board newboard size threads hne, hp]
    rfl
  · intro i j
    simp [Memory.put, hne]
  · intro q hq
    simp [Memory.put, hq]
  · rw [hp]
    simp [Memory.put]

/-- C15 with the blinker at address 0 and the all-dead board elsewhere. -/
theorem play_leaves_board_witness :
    ((0 : Nat) ≠ 1 ∧ 1 ≤ 3 ∧ 1 ≤ 2 ∧ 3 * 3 < 10) ∧
    ∃ (m1 : Memory) (st : stats_t),
      play_mem 10 (fun q => if q = 0 then blinker else dead_board) 0 1 3 2 = some (m1, st)
      ∧ (∀ i j, m1 0 i j = (fun q => if q = 0 then blinker else dead_board) 0 i j)
      ∧ (∀ q, q ≠ 1 → m1 q = (fun q => if q = 0 then blinker else dead_board) q)
      ∧ play 10 ((fun q => if q = 0 then blinker else dead_board) 0)
          ((fun q => if q = 0 then blinker else dead_board) 1) 3 2 = some (m1 1, st) :=
  ⟨by decide, play_leaves_board (fun q => if q = 0 then blinker else dead_board) 0 1 3 2 10
    (by decide) (by decide) (by decide) (by decide)⟩

/-- C16: for `size ≥ 1` and a requested worker count `≥ 1`, every worker that
`play` starts (worker `k` has `start = k` and `jump = W`) is given a `jump` that
is not 0, and its loop ends after exactly `n = ceil((size * size - k) / W)`
iterations, the number with `W * (n - 1) < size * size - k ≤ W * n`: the loop
visits `n` indices, `thread` returns when the loop condition may be tested
`n + 1` times and does not when it may be tested only `n` times. -/
theorem worker_loop_terminates (board newboard : Board) (size threads fuel : Nat)
    (hs : 1 ≤ size) (ht : 1 ≤ threads) (hf : size * size < fuel) :
    ∀ a ∈ play_args size threads,
      a.jump ≠ 0
      ∧ ∃ n : Nat,
          n = (size * size - a.start + a.jump - 1) / a.jump
          ∧ size * size - a.start ≤ a.jump * n
          ∧ a.jump * (n - 1) < size * size - a.start
          ∧ (∃ l, worker_indices fuel a = some l ∧ l.length = n)
          ∧ (∃ r, thread fuel board newboard a = some r)
          ∧ (∃ r, thread (n + 1) board newboard a = some r)
          ∧ thread n board newboard a = none := by
  intro a ha
  obtain ⟨k, hk, rfl⟩ := (mem_play_args size threads a).1 ha
  have hW := effective_threads_pos size threads hs ht
  have hkb : k < size * size := by
    rw [effective_threads_eq_min] at hk
    omega
  obtain ⟨c1, c2⟩ := stride_count_ceil (size * size) k _ hW hkb
  refine ⟨by simp only []; omega, stride_count (size * size) k _, rfl, c1, c2,
    ⟨_, worker_indices_eq size _ k fuel hs hW hf, by simp [worker_list]⟩,
    ⟨_, thread_eq board size _ k fuel newboard hs hW hf⟩, ?_, ?_⟩
  · rw [thread_eq_foldl_indices]
    unfold worker_indices
    simp only []
    rw [thread_indices_exact size _ hs hW, if_pos (Nat.lt_succ_self _)]
    exact ⟨_, rfl⟩
  · rw [thread_eq_foldl_indices]
    unfold worker_indices
    simp only []
    rw [thread_indices_exact size _ hs hW, if_neg (Nat.lt_irrefl _)]
    rfl

/-- C16 at size 3 with two workers. -/
theorem worker_loop_terminates_witness :
    (1 ≤ 3 ∧ 1 ≤ 2 ∧ 3 * 3 < 10) ∧
    ∀ a ∈ play_args 3 2,
      a.jump ≠ 0
      ∧ ∃ n : Nat,
          n = (3 * 3 - a.start + a.jump - 1) / a.jump
          ∧ 3 * 3 - a.start ≤ a.jump * n
          ∧ a.jump * (n - 1) < 3 * 3 - a.start
          ∧ (∃ l, worker_indices 10 a = some l ∧ l.length = n)
          ∧ (∃ r, thread 10 blinker dead_board a = some r)
          ∧ (∃ r, thread (n + 1) blinker dead_board a = some r)
          ∧ thread n blinker dead_board a = none :=
  ⟨by decide, worker_loop_terminates blinker dead_board 3 2 10 (by decide) (by decide)
    (by decide)⟩

/-- C17: for `size ≥ 1`, `idx ↦ (idx / size, idx % size)` maps `[0, size * size)`
one-to-one onto the coordinates `(i, j)` with `i, j < size`, its inverse there is
`(i, j) ↦ i * size + j`, and the loop condition `idx / size < size` holds exactly
when `idx < size * size`. -/
theorem index_coord_bijection (size : Nat) (hs : 1 ≤ size) :
    Set.BijOn (index_coord size) {idx | idx < size * size}
      {c | c.1 < size ∧ c.2 < size}
    ∧ (∀ idx, idx < size * size → coord_index size (index_coord size idx) = idx)
    ∧ (∀ i j, i < size → j < size →
        coord_index size (i, j) < size * size ∧ index_coord size (coord_index size (i, j)) = (i, j))
    ∧ ∀ idx, loop_cond size idx ↔ idx < size * size := by
  have hinv : ∀ idx, coord_index size (index_coord size idx) = idx := by
    intro idx
    simp only [coord_index, index_coord]
    exact Nat.div_add_mod' idx size
  refine ⟨⟨?_, ?_, ?_⟩, fun idx _ => hinv idx, ?_, ?_⟩
  · intro idx hidx
    exact ⟨(Nat.div_lt_iff_lt_mul hs).2 hidx, Nat.mod_lt _ hs⟩
  · intro a _ b _ hab
    rw [← hinv a, ← hinv b, hab]
  · rintro ⟨i, j⟩ ⟨hi, hj⟩
    refine ⟨i * size + j, coord_index_lt size i j hi hj, ?_⟩
    simp only [index_coord, coord_index_div size i j hj, coord_index_mod size i j hj]
  · intro i j hi hj
    refine ⟨coord_index_lt size i j hi hj, ?_⟩
    simp only [index_coord, coord_index, coord_index_div size i j hj,
      coord_index_mod size i j hj]
  · intro idx
    exact Nat.div_lt_iff_lt_mul hs

/-- C17 at size 3. -/
theorem index_coord_bijection_witness :
    1 ≤ 3 ∧
    (Set.BijOn (index_coord 3) {idx | idx < 3 * 3} {c | c.1 < 3 ∧ c.2 < 3}
    ∧ (∀ idx, idx < 3 * 3 → coord_index 3 (index_coord 3 idx) = idx)
    ∧ (∀ i j, i < 3 → j < 3 →
        coord_index 3 (i, j) < 3 * 3 ∧ index_coord 3 (coord_index 3 (i, j)) = (i, j))
    ∧ ∀ idx, loop_cond 3 idx ↔ idx < 3 * 3) :=
  ⟨by decide, index_coord_bijection 3 (by decide)⟩

/-- C18: for `size ≥ 1` (with `size * size` below `2 ^ 32`), a worker count `≥ 1`
and any grid, the statistics returned by `play` satisfy
`survivals + loneliness + overcrowding ==` the number of non-zero cells of the
current grid. -/
theorem play_deaths_and_survivals (board newboard : Board) (size threads fuel : Nat)
    (hs : 1 ≤ size) (ht : 1 ≤ threads) (hf : size * size < fuel)
    (hfit : size * size < UINT_MOD) :
    ∃ (nb : Board) (st : stats_t), play fuel board newboard size threads = some (nb, st)
      ∧ st.survivals + st.loneliness + st.overcrowding
          = cell_count size (fun i j => board i j ≠ 0) := by
  obtain ⟨nb, hp, _⟩ := play_spec board newboard size threads fuel hs ht hf
  have hsum := alive_partition board size (List.range (size * size))
  simp only [idx_count_range _ size hs] at hsum
  refine ⟨nb, _, hp, ?_⟩
  rw [total_stats_exact board size hs hfit]
  exact hsum

/-- C18 at the blinker of size 3 with two workers. -/
theorem play_deaths_and_survivals_witness :
    (1 ≤ 3 ∧ 1 ≤ 2 ∧ 3 * 3 < 10 ∧ 3 * 3 < UINT_MOD) ∧
    ∃ (nb : Board) (st : stats_t), play 10 blinker dead_board 3 2 = some (nb, st)
      ∧ st.survivals + st.loneliness + st.overcrowding
          = cell_count 3 (fun i j => blinker i j ≠ 0) :=
  ⟨by decide, play_deaths_and_survivals blinker dead_board 3 2 10 (by decide) (by decide)
    (by decide) (by decide)⟩

/-- C19: for `size ≥ 1` (with `size * size` below `2 ^ 32`), a worker count `≥ 1`
and a current grid with cells in `{0, 1}`, the number of live cells in the next
grid written by `play` is `borns + survivals` of the statistics that the same
call returns. -/
theorem play_next_live_count (board newboard : Board) (size threads fuel : Nat)
    (hs : 1 ≤ size) (ht : 1 ≤ threads) (hf : size * size < fuel)
    (hfit : size * size < UINT_MOD)
    (hb : ∀ i j, i < size → j < size → board i j = 0 ∨ board i j = 1) :
    ∃ (nb : Board) (st : stats_t), play fuel board newboard size threads = some (nb, st)
      ∧ cell_count size (fun i j => nb i j = 1) = st.borns + st.survivals := by
  obtain ⟨nb, hp, hcell⟩ := play_spec board newboard size threads fuel hs ht hf
  have hsum := next_live_partition board size (List.range (size * size))
  simp only [idx_count_range _ size hs] at hsum
  refine ⟨nb, _, hp, ?_⟩
  rw [total_stats_exact board size hs hfit]
  simp only []
  rw [hsum]
  apply cell_count_congr
  intro i j hi hj
  rw [hcell, if_pos ⟨hi, hj⟩, cell_next_eq_transition _ _ _ _ (hb i j hi hj)]
  unfold transition
  split_ifs <;> simp

/-- C19 at the blinker of size 3 with two workers. -/
theorem play_next_live_count_witness :
    (1 ≤ 3 ∧ 1 ≤ 2 ∧ 3 * 3 < 10 ∧ 3 * 3 < UINT_MOD) ∧
    ∃ (nb : Board) (st : stats_t), play 10 blinker dead_board 3 2 = some (nb, st)
      ∧ cell_count 3 (fun i j => nb i j = 1) = st.borns + st.survivals :=
  ⟨by decide, play_next_live_count blinker dead_board 3 2 10 (by decide) (by decide)
    (by decide) (by decide) blinker_binary⟩

/-- C20: for `size ≥ 1` and a worker count `≥ 1`, if every cell of the current
grid is 0 or 1 then `play` returns and every cell of the next grid is 0 or 1;
and after any number of steps of the loop of `main` on a grid produced by
`read_file`, every cell of the grid is 0 or 1. -/
theorem play_preserves_binary (size threads fuel : Nat)
    (hs : 1 ≤ size) (ht : 1 ≤ threads) (hf : size * size < fuel) :
    (∀ board newboard : Board,
      (∀ i j, i < size → j < size → board i j = 0 ∨ board i j = 1) →
      ∃ (nb : Board) (st : stats_t), play fuel board newboard size threads = some (nb, st)
        ∧ ∀ i j, i < size → j < size → nb i j = 0 ∨ nb i j = 1)
    ∧ ∀ (s : Nat → Nat → Char) (b0 next : Board) (n : Nat),
      ∃ (p q : Board) (total : stats_t) (log : List stats_t),
        main_loop fuel size threads n (read_file s b0 size) next stats_zero
          = some (p, q, total, log)
        ∧ ∀ i j, i < size → j < size → p i j = 0 ∨ p i j = 1 := by
  constructor
  · intro board newboard hb
    obtain ⟨nb, hp, hcell⟩ := play_spec board newboard size threads fuel hs ht hf
    refine ⟨nb, _, hp, ?_⟩
    intro i j hi hj
    rw [hcell, if_pos ⟨hi, hj⟩]
    exact cell_next_binary board size i j (hb i j hi hj)
  · intro s b0 next n
    obtain ⟨r, hr, hP⟩ := main_loop_invariant size threads fuel hs ht hf
      (fun _ b => ∀ i j, i < size → j < size → b i j = 0 ∨ b i j = 1)
      (fun k b nb hb hnb i j hi hj => by
        rw [hnb i j hi hj]
        exact cell_next_binary b size i j (hb i j hi hj))
      n 0 (read_file s b0 size) next stats_zero
      (fun i j hi hj => read_file_binary s b0 size i j hi hj)
    exact ⟨r.1, r.2.1, r.2.2.1, r.2.2.2, hr, hP⟩

/-- C20 at size 3 with two workers. -/
theorem play_preserves_binary_witness :
    (1 ≤ 3 ∧ 1 ≤ 2 ∧ 3 * 3 < 10) ∧
    ((∀ board newboard : Board,
      (∀ i j, i < 3 → j < 3 → board i j = 0 ∨ board i j = 1) →
      ∃ (nb : Board) (st : stats_t), play 10 board newboard 3 2 = some (nb, st)
        ∧ ∀ i j, i < 3 → j < 3 → nb i j = 0 ∨ nb i j = 1)
    ∧ ∀ (s : Nat → Nat → Char) (b0 next : Board) (n : Nat),
      ∃ (p q : Board) (total : stats_t) (log : List stats_t),
        main_loop 10 3 2 n (read_file s b0 3) next stats_zero = some (p, q, total, log)
        ∧ ∀ i j, i < 3 → j < 3 → p i j = 0 ∨ p i j = 1) :=
  ⟨by decide, play_preserves_binary 3 2 10 (by decide) (by decide) (by decide)⟩

end Gol
